import Mathlib

/-!
Verification development for the agent-orchestration core of a web-based
coding-assistant workspace (agent loop, tool executor, provider adapters).

The definitions below are a shallow embedding of the TypeScript source:
* `agent.ts` (`Agent.run`) — the orchestration loop;
* `tools.ts` (`ToolExecutor`) — path resolution, the execute wrapper,
  `setEnvVariable`, `executeShell` option construction;
* `providers.ts` — the OpenAI / Anthropic / Google message re-encoders and
  the OpenAI streaming tool-call assembly.

JavaScript's JSON values are modelled by the inductive `Json` (numbers are
modelled as integers; floating-point literals are outside the model).
JS strings are modelled as `String` / `List Char`.  Effectful tool bodies
(filesystem, network, process spawning) are modelled by explicit environment
parameters or by the pure request records they construct.
-/

set_option linter.unusedVariables false

namespace DanielAI

/-! ## JSON values -/

mutual

inductive Json where
  | null
  | bool (b : Bool)
  | num (n : Int)
  | str (s : String)
  | arr (xs : JsonList)
  | obj (fields : JsonObj)
deriving DecidableEq, Repr

inductive JsonList where
  | nil
  | cons (hd : Json) (tl : JsonList)
deriving DecidableEq, Repr

inductive JsonObj where
  | nil
  | cons (key : String) (val : Json) (tl : JsonObj)
deriving DecidableEq, Repr

end

/-! ## JSON.stringify

Models the JS builtin `JSON.stringify` on JSON values: no added whitespace,
object fields in insertion order.  String escaping covers the quote,
backslash and the common control characters; `\uXXXX` escapes for other
control characters are not modelled (none of the claims exercise them). -/

def escapeChar (c : Char) : List Char :=
  if c = '"' then ['\\', '"']
  else if c = '\\' then ['\\', '\\']
  else if c = '\n' then ['\\', 'n']
  else if c = '\t' then ['\\', 't']
  else if c = '\r' then ['\\', 'r']
  else [c]

def escapeString : List Char → List Char
  | [] => []
  | c :: cs => escapeChar c ++ escapeString cs

def digitChar (k : Nat) : Char := Char.ofNat ('0'.toNat + k)

def natToCharsAux (n : Nat) (acc : List Char) : List Char :=
  if h : n < 10 then digitChar n :: acc
  else natToCharsAux (n / 10) (digitChar (n % 10) :: acc)
decreasing_by exact Nat.div_lt_self (by omega) (by omega)

def natToChars (n : Nat) : List Char := natToCharsAux n []

def intToChars (n : Int) : List Char :=
  if n < 0 then '-' :: natToChars n.natAbs else natToChars n.natAbs

mutual

def Json.stringifyChars : Json → List Char
  | .null => "null".data
  | .bool true => "true".data
  | .bool false => "false".data
  | .num n => intToChars n
  | .str s => '"' :: escapeString s.data ++ ['"']
  | .arr .nil => ['[', ']']
  | .arr xs => '[' :: JsonList.stringifyItems xs ++ [']']
  | .obj .nil => ['{', '}']
  | .obj fs => '{' :: JsonObj.stringifyFields fs ++ ['}']

def JsonList.stringifyItems : JsonList → List Char
  | .nil => []
  | .cons x .nil => x.stringifyChars
  | .cons x xs => x.stringifyChars ++ ',' :: JsonList.stringifyItems xs

def JsonObj.stringifyFields : JsonObj → List Char
  | .nil => []
  | .cons k v .nil => '"' :: escapeString k.data ++ '"' :: ':' :: v.stringifyChars
  | .cons k v fs =>
      '"' :: escapeString k.data ++ '"' :: ':' :: v.stringifyChars
        ++ ',' :: JsonObj.stringifyFields fs

end

def Json.stringifyStr (j : Json) : String := ⟨j.stringifyChars⟩

/-! ## JSON.parse

Models the JS builtin `JSON.parse`: recursive-descent parser with a fuel
parameter (the entry point supplies `length + 1`, which suffices for every
parsable input).  Number parsing covers integer literals, matching the
integer number model. -/

def isWsChar (c : Char) : Bool := c = ' ' || c = '\n' || c = '\t' || c = '\r'

def skipWs (cs : List Char) : List Char := cs.dropWhile isWsChar

-- `String.prototype.startsWith`: `startsWithL s p` holds iff `p` is a string
-- prefix of `s`.
def startsWithL : List Char → List Char → Bool
  | _, [] => true
  | [], _ :: _ => false
  | c :: cs, p :: ps => c = p && startsWithL cs ps


def unescapeChar (c : Char) : Char :=
  if c = 'n' then '\n' else if c = 't' then '\t' else if c = 'r' then '\r' else c

def parseStringBody : List Char → Option (List Char × List Char)
  | [] => none
  | c :: rest =>
    if c = '\\' then
      match rest with
      | [] => none
      | e :: rest2 => (parseStringBody rest2).map (fun p => (unescapeChar e :: p.1, p.2))
    else if c = '"' then some ([], rest)
    else (parseStringBody rest).map (fun p => (c :: p.1, p.2))

def digitVal (c : Char) : Nat := c.toNat - '0'.toNat

def digitsToNat (ds : List Char) : Nat :=
  ds.foldl (fun acc c => 10 * acc + digitVal c) 0

mutual

def parseValue : Nat → List Char → Option (Json × List Char)
  | 0, _ => none
  | fuel + 1, cs =>
    match skipWs cs with
    | [] => none
    | c :: rest =>
      if c = '"' then (parseStringBody rest).map (fun p => (Json.str ⟨p.1⟩, p.2))
      else if c = '{' then
        (if (skipWs rest).head? = some '}' then some (Json.obj .nil, (skipWs rest).tail)
         else (parseObjFields fuel rest).map (fun p => (Json.obj p.1, p.2)))
      else if c = '[' then
        (if (skipWs rest).head? = some ']' then some (Json.arr .nil, (skipWs rest).tail)
         else (parseArrItems fuel rest).map (fun p => (Json.arr p.1, p.2)))
      else if startsWithL (c :: rest) ['n', 'u', 'l', 'l'] then some (Json.null, rest.drop 3)
      else if startsWithL (c :: rest) ['t', 'r', 'u', 'e'] then some (Json.bool true, rest.drop 3)
      else if startsWithL (c :: rest) ['f', 'a', 'l', 's', 'e'] then
        some (Json.bool false, rest.drop 4)
      else if c = '-' then
        (let ds := rest.takeWhile Char.isDigit
         if ds = [] then none
         else some (Json.num (-(digitsToNat ds : Int)), rest.drop ds.length))
      else if c.isDigit then
        (let ds := (c :: rest).takeWhile Char.isDigit
         some (Json.num (digitsToNat ds), (c :: rest).drop ds.length))
      else none

def parseArrItems : Nat → List Char → Option (JsonList × List Char)
  | 0, _ => none
  | fuel + 1, cs =>
    match parseValue fuel cs with
    | none => none
    | some (v, rest) =>
      match skipWs rest with
      | [] => none
      | c2 :: r2 =>
        if c2 = ',' then (parseArrItems fuel r2).map (fun p => (JsonList.cons v p.1, p.2))
        else if c2 = ']' then some (JsonList.cons v .nil, r2)
        else none

def parseObjFields : Nat → List Char → Option (JsonObj × List Char)
  | 0, _ => none
  | fuel + 1, cs =>
    match skipWs cs with
    | [] => none
    | c :: rest =>
      if c = '"' then
        match parseStringBody rest with
        | none => none
        | some (k, r1) =>
          match skipWs r1 with
          | [] => none
          | c2 :: r2 =>
            if c2 = ':' then
              match parseValue fuel r2 with
              | none => none
              | some (v, r3) =>
                match skipWs r3 with
                | [] => none
                | c3 :: r4 =>
                  if c3 = ',' then
                    (parseObjFields fuel r4).map (fun p => (JsonObj.cons ⟨k⟩ v p.1, p.2))
                  else if c3 = '}' then some (JsonObj.cons ⟨k⟩ v .nil, r4)
                  else none
            else none
      else none

end

def jsonParse (s : String) : Option Json :=
  match parseValue (s.data.length + 1) s.data with
  | some (j, rest) => if skipWs rest = [] then some j else none
  | none => none

-- A remainder that cannot extend a just-parsed number literal.
def digitSafe (rest : List Char) : Prop :=
  ∀ c, rest.head? = some c → c.isDigit = false

-- Fuel sufficient for `parseValue` to parse the serialization of a value.
mutual

def Json.fuelV : Json → Nat
  | .arr xs => 1 + xs.fuelItems
  | .obj fs => 1 + fs.fuelFields
  | _ => 1

def JsonList.fuelItems : JsonList → Nat
  | .nil => 0
  | .cons x xs => 1 + x.fuelV + xs.fuelItems

def JsonObj.fuelFields : JsonObj → Nat
  | .nil => 0
  | .cons _ v fs => 1 + v.fuelV + fs.fuelFields

end

/-! ## String utilities (models of the JS string builtins the source uses) -/

-- `s.split(sep)` for a single-character separator.
def splitOnChar (sep : Char) : List Char → List (List Char)
  | [] => [[]]
  | c :: rest =>
    if c = sep then [] :: splitOnChar sep rest
    else
      match splitOnChar sep rest with
      | [] => [[c]]
      | l :: ls => (c :: l) :: ls

def splitLinesL (cs : List Char) : List (List Char) := splitOnChar '\n' cs

def joinWith (sep : Char) : List (List Char) → List Char
  | [] => []
  | [l] => l
  | l :: ls => l ++ sep :: joinWith sep ls

def joinLinesL (ls : List (List Char)) : List Char := joinWith '\n' ls

-- `String.prototype.trim` (the source only ever meets ASCII whitespace).
def trimL (cs : List Char) : List Char :=
  ((cs.dropWhile isWsChar).reverse.dropWhile isWsChar).reverse

def trimS (s : String) : String := ⟨trimL s.data⟩

/-! ## Mini regular-expression matcher

`setEnvVariable` builds `new RegExp("^" + key + "=.*$", "m")` from the raw
key and the multiline anchors make every match a whole line.  The fragment of
JS regex semantics this can reach on a single line is modelled by `rmatch`:
literal characters, `.` (any character), and postfix `*` / `+`, matched
against the entire line. -/

def charMatch (p c : Char) : Bool := p = '.' || p = c

-- Fuelled matcher: every step shrinks `pattern.length + s.length`, so the
-- entry point's fuel of `pattern.length + s.length + 1` never runs out.
def rmatchF : Nat → List Char → List Char → Bool
  | 0, _, _ => false
  | _ + 1, [], s => s.isEmpty
  | fuel + 1, p :: ps, s =>
    if ps.head? = some '*' then
      rmatchF fuel ps.tail s ||
        (match s with
         | [] => false
         | c :: cs => charMatch p c && rmatchF fuel (p :: ps) cs)
    else if ps.head? = some '+' then
      (match s with
       | [] => false
       | c :: cs => charMatch p c && rmatchF fuel (p :: '*' :: ps.tail) cs)
    else
      (match s with
       | [] => false
       | c :: cs => charMatch p c && rmatchF fuel ps cs)

def rmatch (pat s : List Char) : Bool := rmatchF (pat.length + s.length + 1) pat s

-- A line matches `^KEY=.*$` (multiline) iff `rmatch` accepts the whole line.
def lineMatchesKey (key : List Char) (line : List Char) : Bool :=
  rmatch (key ++ '=' :: '.' :: '*' :: []) line

-- Characters that the interpolated regex treats as themselves (no JS regex
-- metacharacter among letters, digits, underscore).
def isSafeKeyChar (c : Char) : Bool := c.isAlpha || c.isDigit || c = '_'

def replaceFirstLine (p : List Char → Bool) (newLine : List Char) :
    List (List Char) → List (List Char)
  | [] => []
  | l :: ls => if p l then newLine :: ls else l :: replaceFirstLine p newLine ls

/-! ## Path resolution (`ToolExecutor.resolvePath`)

`path.resolve(projectDir, relativePath)` for POSIX paths with an absolute
`projectDir`: if the relative path is absolute it wins, otherwise the two are
joined; then `.`/`..`/empty segments are normalized away. -/

def normalizeSegments (parts : List (List Char)) : List (List Char) :=
  parts.foldl
    (fun acc p =>
      if p = [] ∨ p = ['.'] then acc
      else if p = ['.', '.'] then acc.dropLast
      else acc ++ [p])
    []

def pathResolve (base rel : String) : String :=
  let s : List Char :=
    if rel.data.head? = some '/' then rel.data else base.data ++ '/' :: rel.data
  ⟨'/' :: joinWith '/' (normalizeSegments (splitOnChar '/' s))⟩

-- `ToolExecutor.resolvePath`: resolve, then require the project directory to
-- be a string prefix of the resolved path (`resolved.startsWith(projectDir)`),
-- else throw "Path traversal not allowed".
def resolvePath (projectDir relativePath : String) : Except String String :=
  let resolved := pathResolve projectDir relativePath
  if startsWithL resolved.data projectDir.data then Except.ok resolved
  else Except.error "Path traversal not allowed"

/-! ## Internal message vocabulary (`providers.ts` interfaces) -/

inductive Role where
  | user | assistant | system | tool
deriving DecidableEq, Repr

structure ToolCall where
  id : String
  name : String
  arguments : Json
deriving DecidableEq, Repr

structure ToolResultRec where
  toolCallId : String
  result : String
  isError : Bool := false
deriving DecidableEq, Repr

-- `AIMessage`.  `toolCalls = []` models both an absent and an empty array
-- (the source only ever tests `toolCalls && toolCalls.length > 0`);
-- `toolResults = none` models an absent field (the source tests bare
-- truthiness of `toolResults`).
structure AIMessage where
  role : Role
  content : String
  toolCalls : List ToolCall := []
  toolResults : Option (List ToolResultRec) := none
deriving DecidableEq, Repr

structure ToolDefinition where
  name : String
  description : String
  parameters : Json
deriving DecidableEq, Repr

/-! ## Tool executor (`tools.ts`) -/

def knownToolNames : List String :=
  ["read_file", "write_file", "list_directory", "create_directory",
   "delete_file", "move_file", "execute_shell", "web_search",
   "get_system_info", "install_package", "git_operation", "deploy",
   "manage_process", "set_env_variable"]

-- `ToolExecutor.execute`: the switch dispatches on the tool name; the tool
-- bodies perform I/O and are modelled by the environment `bodies` (a body
-- that throws is a `.error`).  An unknown name throws `Unknown tool:`.
-- The surrounding try/catch turns any exception into an error-flagged
-- result `Error: <message>`; on success `result` is the body's text.
-- In both cases the returned record's `toolCallId` field is the tool name
-- (the agent loop overwrites it with the invocation id).
def executeDispatch (bodies : String → Json → Except String String)
    (toolName : String) (args : Json) : Except String String :=
  if knownToolNames.contains toolName then bodies toolName args
  else Except.error ("Unknown tool: " ++ toolName)

def execute (bodies : String → Json → Except String String)
    (toolName : String) (args : Json) : ToolResultRec :=
  match executeDispatch bodies toolName args with
  | Except.ok r => { toolCallId := toolName, result := r, isError := false }
  | Except.error m => { toolCallId := toolName, result := "Error: " ++ m, isError := true }

/-! ### `setEnvVariable` and the in-memory state

The executor state carries the project directory, the environment-variable
overlay (a JS object, modelled as a finite map) and the contents of the
project's `.env` file (`none` models a missing file; reading it throws and
the catch leaves the content empty). -/

structure ExecState where
  projectDir : String
  envVars : String → Option String
  envFile : Option (List Char)

-- JS object update `obj[key] = value`.
def objSet (m : String → Option String) (key value : String) : String → Option String :=
  fun k => if k = key then some value else m k

-- The `.env` upsert of `setEnvVariable` (persisting branch), at the level of
-- character lists.  `regex.test` with the `m`-flagged pattern `^KEY=.*$`
-- holds iff some line matches; `String.replace` with that regex replaces the
-- first matching line.  (`$`-substitution patterns of `String.replace` are
-- not modelled; the theorems restrict values accordingly.)
def upsertEnvL (key value content : List Char) : List Char :=
  let newLine := key ++ '=' :: value
  if (splitLinesL content).any (lineMatchesKey key) then
    joinLinesL (replaceFirstLine (lineMatchesKey key) newLine (splitLinesL content))
  else
    trimL content ++ (if content ≠ [] then ['\n'] else []) ++ newLine ++ ['\n']

def setEnvVariable (s : ExecState) (key value : String) (persist : Option Bool) :
    ExecState × String :=
  let s1 : ExecState := { s with envVars := objSet s.envVars key value }
  if persist ≠ some false then
    let envContent : List Char := (s1.envFile.getD []) -- read; a missing file reads as empty
    let newContent := upsertEnvL key.data value.data envContent
    ({ s1 with envFile := some newContent }, "Set " ++ key ++ " and saved to .env")
  else
    (s1, "Set " ++ key ++ " (session only)")

/-! ### `executeShell` option construction

The spawning itself is I/O; what the source computes purely is the option
record handed to `exec`/`spawn`: working directory, merged environment
(`{...process.env, ...this.envVars}` — the overlay wins), and the timeout
(`background ? undefined : (timeout || 30000)`). -/

structure SpawnSpec where
  command : String
  cwd : String
  env : String → Option String
  timeoutMs : Option Nat

def mergeEnv (processEnv overlay : String → Option String) : String → Option String :=
  fun k => match overlay k with
    | some v => some v
    | none => processEnv k

def executeShellSpec (s : ExecState) (processEnv : String → Option String)
    (command : String) (background : Option Bool) (timeout : Option Nat) : SpawnSpec :=
  { command := command
    cwd := s.projectDir
    env := mergeEnv processEnv s.envVars
    timeoutMs :=
      if background.getD false then none
      else some (match timeout with
        | some t => if t = 0 then 30000 else t
        | none => 30000) }

/-! ## OpenAI adapter: `OpenAIProvider.formatMessages`

Each turn maps to either one chat message (with optional `tool_calls`
metadata whose `function.arguments` is `JSON.stringify` of the argument bag)
or, for a tool turn carrying results, one `role:"tool"` message per result;
the per-turn results are flattened (`messages.map(...).flat()`). -/

structure OAIToolCallEnc where
  id : String
  name : String
  argumentsText : String
deriving DecidableEq, Repr

inductive OAIMessage where
  | chat (role : String) (content : String) (tool_calls : List OAIToolCallEnc)
  | toolResult (tool_call_id : String) (content : String)
deriving DecidableEq, Repr

def roleStr : Role → String
  | .user => "user"
  | .assistant => "assistant"
  | .system => "system"
  | .tool => "tool"

def openAIFormatOne (m : AIMessage) : List OAIMessage :=
  if m.role = .tool ∧ m.toolResults.isSome then
    (m.toolResults.getD []).map (fun tr => OAIMessage.toolResult tr.toolCallId tr.result)
  else
    [OAIMessage.chat (roleStr m.role) m.content
      (m.toolCalls.map (fun tc => ⟨tc.id, tc.name, tc.arguments.stringifyStr⟩))]

def openAIFormatMessages (messages : List AIMessage) : List OAIMessage :=
  (messages.map openAIFormatOne).flatten

/-! ## OpenAI adapter: `streamComplete` tool-call assembly

The body of the SSE read loop, modelled above the line level: the per-line
`JSON.parse` guarded by try/catch is a `junk` line (swallowed); a parsed
chunk carries an optional content delta and tool-call deltas keyed by index.
Deltas accumulate in a `Map` (insertion-ordered).  On the `[DONE]` sentinel
the generator yields `done` and returns.  Only when the stream ends without
the sentinel are the buffered calls emitted, and there the buffered argument
text goes through an unguarded `JSON.parse` — a failure there propagates out
of the generator, modelled as `Except.error`. -/

structure OAIToolCallDelta where
  index : Nat
  id : Option String := none
  name : Option String := none
  argsFragment : Option String := none
deriving DecidableEq, Repr

inductive OAIStreamLine where
  | doneSentinel
  | delta (content : Option String) (tool_calls : List OAIToolCallDelta)
  | junk
deriving DecidableEq, Repr

structure PartialTC where
  id : Option String := none
  name : Option String := none
  argumentsText : Option String := none
deriving DecidableEq, Repr

inductive OAIEvent where
  | content (s : String)
  | tool_call (id : String) (name : String) (arguments : Option Json)
  | done
  | error (e : String)
deriving DecidableEq, Repr

def truthyS : Option String → Bool
  | none => false
  | some s => s ≠ ""

def bufGet (buf : List (Nat × PartialTC)) (k : Nat) : PartialTC :=
  match buf.lookup k with
  | some tc => tc
  | none => {}

def bufSet : List (Nat × PartialTC) → Nat → PartialTC → List (Nat × PartialTC)
  | [], k, tc => [(k, tc)]
  | (k0, tc0) :: rest, k, tc =>
    if k0 = k then (k, tc) :: rest else (k0, tc0) :: bufSet rest k tc

def applyDelta (buf : List (Nat × PartialTC)) (d : OAIToolCallDelta) :
    List (Nat × PartialTC) :=
  let existing := bufGet buf d.index
  let e1 := if truthyS d.id then { existing with id := d.id } else existing
  let e2 := if truthyS d.name then { e1 with name := d.name } else e1
  let e3 :=
    if truthyS d.argsFragment then
      { e2 with argumentsText := some ((e2.argumentsText.getD "") ++ d.argsFragment.getD "") }
    else e2
  bufSet buf d.index e3

-- `JSON.parse` as the JS builtin: throws on malformed input.
def jsonParseExn (s : String) : Except String Json :=
  match jsonParse s with
  | some j => Except.ok j
  | none => Except.error ("Unexpected token in JSON: " ++ s)

def openAIEmitBuffered : List (Nat × PartialTC) → Except String (List OAIEvent)
  | [] => Except.ok []
  | (_, tc) :: rest =>
    match tc.id, tc.name with
    | some i, some n =>
      (match tc.argumentsText with
       | some s =>
         match jsonParseExn s with
         | Except.ok j =>
             (openAIEmitBuffered rest).map (fun evs => OAIEvent.tool_call i n (some j) :: evs)
         | Except.error e => Except.error e
       | none =>
         (openAIEmitBuffered rest).map (fun evs => OAIEvent.tool_call i n none :: evs))
    | _, _ => openAIEmitBuffered rest

def openAIProcessLines :
    List OAIStreamLine → List OAIEvent → List (Nat × PartialTC) →
      Except String (List OAIEvent)
  | [], events, buf =>
    (openAIEmitBuffered buf).map (fun tcEvents => events ++ tcEvents ++ [OAIEvent.done])
  | line :: rest, events, buf =>
    match line with
    | .doneSentinel => Except.ok (events ++ [OAIEvent.done])
    | .junk => openAIProcessLines rest events buf
    | .delta c tcs =>
      let events' := events ++ (match c with | some s => [OAIEvent.content s] | none => [])
      openAIProcessLines rest events' (tcs.foldl applyDelta buf)

def openAIStreamComplete (lines : List OAIStreamLine) : Except String (List OAIEvent) :=
  openAIProcessLines lines [] []

/-! ## Anthropic adapter: `AnthropicProvider.formatMessages`

System turns accumulate into a separate `system` string (each content plus a
newline), trimmed at the end; a tool turn becomes one `user` message per
result, each holding a single `tool_result` block; an assistant turn with
tool calls becomes one `assistant` message of `tool_use` blocks (its text
content is dropped); anything else is a plain text message. -/

inductive AnthBlock where
  | tool_result (tool_use_id : String) (content : String) (is_error : Bool)
  | tool_use (id : String) (name : String) (input : Json)
deriving DecidableEq, Repr

inductive AnthContent where
  | text (s : String)
  | blocks (bs : List AnthBlock)
deriving DecidableEq, Repr

structure AnthMsg where
  role : String
  content : AnthContent
deriving DecidableEq, Repr

def anthropicGo : Option String → List AIMessage → Option String × List AnthMsg
  | sys, [] => (sys, [])
  | sys, m :: rest =>
    if m.role = .system then
      anthropicGo (some ((sys.getD "") ++ m.content ++ "\n")) rest
    else if m.role = .tool ∧ m.toolResults.isSome then
      let here := (m.toolResults.getD []).map (fun tr =>
        AnthMsg.mk "user" (.blocks [.tool_result tr.toolCallId tr.result tr.isError]))
      let (sys', ms) := anthropicGo sys rest
      (sys', here ++ ms)
    else if m.toolCalls ≠ [] then
      let here := AnthMsg.mk "assistant"
        (.blocks (m.toolCalls.map (fun tc => .tool_use tc.id tc.name tc.arguments)))
      let (sys', ms) := anthropicGo sys rest
      (sys', here :: ms)
    else
      let here := AnthMsg.mk (if m.role = .assistant then "assistant" else "user")
        (.text m.content)
      let (sys', ms) := anthropicGo sys rest
      (sys', here :: ms)

def anthropicFormatMessages (messages : List AIMessage) :
    Option String × List AnthMsg :=
  let (sys, ms) := anthropicGo none messages
  (sys.map trimS, ms)

/-! ## Google adapter: `GoogleProvider.formatMessages`

A system turn overwrites `systemInstruction` (the last one wins); a tool turn
becomes one `function` content whose parts are `functionResponse`s named by
the invocation id; an assistant turn with tool calls becomes one `model`
content of `functionCall` parts (the invocation id is dropped); anything else
is a plain text content. -/

inductive GPart where
  | text (s : String)
  | functionCall (name : String) (args : Json)
  | functionResponse (name : String) (result : String)
deriving DecidableEq, Repr

structure GContent where
  role : String
  parts : List GPart
deriving DecidableEq, Repr

def googleGo : Option String → List AIMessage → Option String × List GContent
  | sys, [] => (sys, [])
  | sys, m :: rest =>
    if m.role = .system then
      googleGo (some m.content) rest
    else if m.role = .tool ∧ m.toolResults.isSome then
      let here := GContent.mk "function"
        ((m.toolResults.getD []).map (fun tr => .functionResponse tr.toolCallId tr.result))
      let (sys', ms) := googleGo sys rest
      (sys', here :: ms)
    else if m.toolCalls ≠ [] then
      let here := GContent.mk "model"
        (m.toolCalls.map (fun tc => .functionCall tc.name tc.arguments))
      let (sys', ms) := googleGo sys rest
      (sys', here :: ms)
    else
      let here := GContent.mk (if m.role = .assistant then "model" else "user")
        [.text m.content]
      let (sys', ms) := googleGo sys rest
      (sys', here :: ms)

def googleFormatMessages (messages : List AIMessage) :
    Option String × List GContent :=
  googleGo none messages

/-! ## Agent loop (`Agent.run`)

The provider is modelled as an oracle giving, for each round-trip index, the
chunk sequence its stream yields; the tool executor as a total function
(the real `ToolExecutor.execute` never throws — see the C7 theorem).
Persistence (`storage.createMessage`) is modelled as appending to the
returned list of persisted turns.  `run` also returns the number of provider
round-trips it performed. -/

inductive AIStreamChunk where
  | content (s : String)
  | tool_call (tc : ToolCall)
  | done
  | error (e : String)
deriving DecidableEq, Repr

inductive AgentEvent where
  | thinking
  | content (s : String)
  | tool_call (tc : ToolCall)
  | tool_result (name : String) (result : String) (isError : Bool)
  | error (e : String)
  | done
deriving DecidableEq, Repr

structure PersistedMsg where
  role : Role
  content : String
  toolCalls : List ToolCall := []
  toolResults : List ToolResultRec := []
deriving DecidableEq, Repr

def AIStreamChunk.isErrorChunk : AIStreamChunk → Bool
  | .error _ => true
  | _ => false

def AIStreamChunk.isToolCallChunk : AIStreamChunk → Bool
  | .tool_call _ => true
  | _ => false

-- One pass over the stream: events yielded, accumulated content, collected
-- tool calls, and the error (if an error chunk made the generator return;
-- chunks after it are not consumed).
def processChunks : List AIStreamChunk →
    List AgentEvent × String × List ToolCall × Option String
  | [] => ([], "", [], none)
  | c :: rest =>
    match c with
    | .content s =>
      let (evs, fc, tcs, err) := processChunks rest
      (AgentEvent.content s :: evs, s ++ fc, tcs, err)
    | .tool_call tc =>
      let (evs, fc, tcs, err) := processChunks rest
      (AgentEvent.tool_call tc :: evs, fc, tc :: tcs, err)
    | .error e => ([AgentEvent.error e], "", [], some e)
    | .done => processChunks rest

def agentLoop (provider : Nat → List AIStreamChunk)
    (executor : String → Json → ToolResultRec) :
    Nat → Nat → List AgentEvent × List PersistedMsg × Nat
  | 0, _ => ([AgentEvent.error "Maximum iterations reached"], [], 0)
  | fuel + 1, i =>
    let (evs, fullContent, toolCalls, err) := processChunks (provider i)
    match err with
    | some _ => (AgentEvent.thinking :: evs, [], 1)
    | none =>
      let aMsg : PersistedMsg :=
        { role := .assistant, content := fullContent, toolCalls := toolCalls }
      if toolCalls = [] then
        (AgentEvent.thinking :: evs ++ [AgentEvent.done], [aMsg], 1)
      else
        let results := toolCalls.map (fun tc =>
          { executor tc.name tc.arguments with toolCallId := tc.id })
        let rEvents := toolCalls.map (fun tc =>
          let r := { executor tc.name tc.arguments with toolCallId := tc.id }
          AgentEvent.tool_result tc.name r.result r.isError)
        let tMsg : PersistedMsg :=
          { role := .tool
            content := String.intercalate "\n\n"
              (results.map (fun r => r.toolCallId ++ ": " ++ r.result))
            toolResults := results }
        let (evs', msgs', n) := agentLoop provider executor fuel (i + 1)
        (AgentEvent.thinking :: evs ++ rEvents ++ evs', aMsg :: tMsg :: msgs', n + 1)

-- `config.maxIterations || 10`: an absent or zero (falsy) configuration
-- yields the default of 10.
def effectiveMaxIterations : Option Nat → Nat
  | none => 10
  | some n => if n = 0 then 10 else n

def runAgent (provider : Nat → List AIStreamChunk)
    (executor : String → Json → ToolResultRec)
    (maxIterations : Option Nat) (userMessage : String) :
    List AgentEvent × List PersistedMsg × Nat :=
  let (evs, msgs, n) := agentLoop provider executor (effectiveMaxIterations maxIterations) 0
  (evs, { role := .user, content := userMessage } :: msgs, n)

-- Per-turn message encodings of the Anthropic and Google loops (their
-- message output is the concatenation of these, independent of the system
-- accumulator).
def anthMsgsOne (m : AIMessage) : List AnthMsg :=
  if m.role = Role.system then []
  else if m.role = Role.tool ∧ m.toolResults.isSome then
    (m.toolResults.getD []).map (fun tr =>
      AnthMsg.mk "user" (.blocks [.tool_result tr.toolCallId tr.result tr.isError]))
  else if m.toolCalls ≠ [] then
    [AnthMsg.mk "assistant"
      (.blocks (m.toolCalls.map (fun tc => .tool_use tc.id tc.name tc.arguments)))]
  else
    [AnthMsg.mk (if m.role = Role.assistant then "assistant" else "user") (.text m.content)]

def googleContentsOne (m : AIMessage) : List GContent :=
  if m.role = Role.system then []
  else if m.role = Role.tool ∧ m.toolResults.isSome then
    [GContent.mk "function"
      ((m.toolResults.getD []).map (fun tr => .functionResponse tr.toolCallId tr.result))]
  else if m.toolCalls ≠ [] then
    [GContent.mk "model" (m.toolCalls.map (fun tc => .functionCall tc.name tc.arguments))]
  else
    [GContent.mk (if m.role = Role.assistant then "model" else "user") [.text m.content]]

-- The two turn shapes the agent loop persists for a tool round-trip: an
-- assistant turn carrying the invocations, then a tool turn carrying the
-- outcomes.
def assistantTurn (content : String) (tcs : List ToolCall) : AIMessage :=
  { role := Role.assistant, content := content, toolCalls := tcs, toolResults := none }

def toolTurn (tcontent : String) (trs : List ToolResultRec) : AIMessage :=
  { role := Role.tool, content := tcontent, toolCalls := [], toolResults := some trs }

/-! ## Specification-level predicates -/

-- The persisted-history invariant of the spec: every assistant turn with
-- tool invocations is immediately followed by a tool turn whose outcomes
-- carry exactly the invocation identifiers, in order.
def OutcomesMatch (msgs : List PersistedMsg) : Prop :=
  ∀ k m, msgs[k]? = some m → m.role = Role.assistant → m.toolCalls ≠ [] →
    ∃ m', msgs[k + 1]? = some m'
      ∧ m'.role = Role.tool
      ∧ m'.toolResults.map (fun r => r.toolCallId) = m.toolCalls.map (fun tc => tc.id)

-- The system-turn contents of a history, in order.
def systemContents (messages : List AIMessage) : List String :=
  (messages.filter (fun m => m.role = Role.system)).map (fun m => m.content)

-- Order-preserving concatenation of system-turn contents, one trailing
-- newline per turn (the Anthropic adapter's accumulation shape).
def concatWithNewlines : List String → String
  | [] => ""
  | c :: cs => c ++ "\n" ++ concatWithNewlines cs

/-! ## Concrete stubs used by witness instantiations -/

def stubToolCall : ToolCall := ⟨"call_1", "read_file", Json.obj (.cons "path" (.str "x") .nil)⟩

def stubProvider : Nat → List AIStreamChunk := fun i =>
  if i = 0 then [AIStreamChunk.tool_call stubToolCall] else [AIStreamChunk.content "hi"]

def stubLoopingProvider : Nat → List AIStreamChunk :=
  fun _ => [AIStreamChunk.tool_call stubToolCall]

def stubExecutor : String → Json → ToolResultRec := fun n _ => ⟨n, "stub result", false⟩

/-! # Theorems -/

/-- C2: the directory-confinement claim fails on the code.  `resolvePath`
guards with a raw `startsWith` string test, so a `../` path whose resolution
is a sibling directory whose name merely extends the project root as a string
(here `/home/user/projEvil` against root `/home/user/proj`) is accepted and
returned for I/O, even though it is outside the root (the root followed by a
separator is not a prefix of it, nor is it the root itself).  The claim says
every such escape fails with a path-traversal error before any I/O. -/
theorem resolvePath_sibling_escape_not_rejected :
    resolvePath "/home/user/proj" "../projEvil" = Except.ok "/home/user/projEvil"
    ∧ startsWithL "/home/user/projEvil".data "/home/user/proj/".data = false
    ∧ "/home/user/projEvil" ≠ "/home/user/proj" := by
  refine ⟨by rfl, by rfl, by decide⟩

/-- C5: the fragment-buffering claim fails on the code for the OpenAI
adapter.  The two argument fragments do concatenate and parse to the claimed
argument object, but when the stream is terminated by the vendor's
`data: [DONE]` sentinel (which OpenAI always sends) the generator returns
immediately and the buffered tool call is never emitted: the event sequence
is just `done`, with no tool-invocation event at all. -/
theorem openai_stream_drops_buffered_tool_call_on_done :
    openAIStreamComplete
      [OAIStreamLine.delta none
         [{ index := 0, id := some "call_1", name := some "read_file",
            argsFragment := some "\x7b\"pat" }],
       OAIStreamLine.delta none [{ index := 0, argsFragment := some "h\": \"x\"\x7d" }],
       OAIStreamLine.doneSentinel]
      = Except.ok [OAIEvent.done]
    ∧ jsonParse ("\x7b\"pat" ++ "h\": \"x\"\x7d")
        = some (Json.obj (.cons "path" (.str "x") .nil)) := by
  refine ⟨by rfl, by rfl⟩

/-- C6: the decode-error-recovery claim fails on the code for the OpenAI
adapter.  When the stream ends without the `[DONE]` sentinel and a buffered
tool call's argument text is malformed, the adapter's final emission runs the
buffered text through an unguarded `JSON.parse`, so the exception propagates
out of the generator and aborts the stream instead of yielding the invocation
with an empty argument object. -/
theorem openai_stream_throws_on_malformed_buffered_args :
    openAIStreamComplete
      [OAIStreamLine.delta none
         [{ index := 0, id := some "call_1", name := some "read_file",
            argsFragment := some "\x7b\"path\":" }]]
      = Except.error ("Unexpected token in JSON: " ++ "\x7b\"path\":") := by
  rfl

/-- C7: `ToolExecutor.execute` is total over all tool names (known or not)
and argument bags: it always returns a result record, the record echoes the
dispatch outcome — the body's text on success, `Error: <message>` with the
error flag set when the body throws — and an unknown tool name yields an
error-flagged `Unknown tool` result.  Totality of this Lean function is the
model of "the executor never throws across its boundary". -/
theorem execute_uniform_result_never_throws
    (bodies : String → Json → Except String String) (toolName : String) (args : Json) :
    (execute bodies toolName args).toolCallId = toolName
    ∧ ((∃ r, executeDispatch bodies toolName args = Except.ok r
          ∧ execute bodies toolName args = ⟨toolName, r, false⟩)
       ∨ (∃ m, executeDispatch bodies toolName args = Except.error m
          ∧ execute bodies toolName args = ⟨toolName, "Error: " ++ m, true⟩))
    ∧ (toolName ∉ knownToolNames →
        execute bodies toolName args
          = ⟨toolName, "Error: " ++ ("Unknown tool: " ++ toolName), true⟩) := by
  refine ⟨?_, ?_, ?_⟩
  · cases h : executeDispatch bodies toolName args <;> simp [execute, h]
  · cases h : executeDispatch bodies toolName args with
    | ok r => exact Or.inl ⟨r, rfl, by simp [execute, h]⟩
    | error m => exact Or.inr ⟨m, rfl, by simp [execute, h]⟩
  · intro hunk
    simp [execute, executeDispatch, hunk]

/-- C7 witness: an unknown tool name with arbitrary bodies yields the
error-flagged `Unknown tool` result (the implication's hypothesis discharged
at a concrete input). -/
theorem execute_uniform_result_never_throws_witness :
    execute (fun _ _ => Except.ok "ok") "no_such_tool" Json.null
      = ⟨"no_such_tool", "Error: " ++ ("Unknown tool: " ++ "no_such_tool"), true⟩ :=
  (execute_uniform_result_never_throws (fun _ _ => Except.ok "ok") "no_such_tool" Json.null).2.2
    (by decide)

/-- C10: `set_env_variable` with `persist = false` leaves the `.env` file
untouched, reports a session-only confirmation, still updates the in-memory
overlay, and every subsequent `execute_shell` in the session builds its
spawn environment as `process.env` overridden by the overlay, so the new
value is visible under its key. -/
theorem setEnvVariable_no_persist_frame
    (s : ExecState) (processEnv : String → Option String)
    (key value command : String) (background : Option Bool) (timeout : Option Nat) :
    ((setEnvVariable s key value (some false)).1).envFile = s.envFile
    ∧ (setEnvVariable s key value (some false)).2 = "Set " ++ key ++ " (session only)"
    ∧ ((setEnvVariable s key value (some false)).1).envVars = objSet s.envVars key value
    ∧ (executeShellSpec ((setEnvVariable s key value (some false)).1) processEnv
         command background timeout).env key = some value := by
  refine ⟨by simp [setEnvVariable], by simp [setEnvVariable], by simp [setEnvVariable], ?_⟩
  simp [setEnvVariable, executeShellSpec, mergeEnv, objSet]

/-- C8 counterexample: on a history with two system turns `A` then `B`, the
Google adapter's top-level system field holds only `B`; the text `A` does not
occur in it at all, so the field is not an order-preserving concatenation of
all system turns as the claim requires. -/
theorem google_system_keeps_only_last :
    (googleFormatMessages
        [{ role := Role.system, content := "A" }, { role := Role.system, content := "B" }]).1
      = some "B"
    ∧ ¬ ∃ l r, "B".data = l ++ "A".data ++ r := by
  refine ⟨by decide, ?_⟩
  rintro ⟨l, r, h⟩
  cases l with
  | nil =>
    rw [List.nil_append] at h
    injection h with h1 h2
    exact absurd h1 (by decide)
  | cons a as =>
    injection h with h1 h2
    simp at h2
/-! ## Agent-loop lemmas -/

theorem outcomesMatch_nil : OutcomesMatch [] := by
  intro k m hm
  simp at hm

theorem outcomesMatch_cons_skip (m : PersistedMsg) (msgs : List PersistedMsg)
    (hrole : m.role ≠ Role.assistant) (h : OutcomesMatch msgs) :
    OutcomesMatch (m :: msgs) := by
  intro k m' hm' hr hc
  cases k with
  | zero =>
    simp at hm'
    subst hm'
    exact absurd hr hrole
  | succ k =>
    simp only [List.getElem?_cons_succ] at hm' ⊢
    exact h k m' hm' hr hc

theorem outcomesMatch_cons_nocalls (m : PersistedMsg) (msgs : List PersistedMsg)
    (hcalls : m.toolCalls = []) (h : OutcomesMatch msgs) :
    OutcomesMatch (m :: msgs) := by
  intro k m' hm' hr hc
  cases k with
  | zero =>
    simp at hm'
    subst hm'
    exact absurd hcalls hc
  | succ k =>
    simp only [List.getElem?_cons_succ] at hm' ⊢
    exact h k m' hm' hr hc

theorem outcomesMatch_cons_pair (a t : PersistedMsg) (msgs : List PersistedMsg)
    (ht : t.role = Role.tool)
    (hmap : t.toolResults.map (fun r => r.toolCallId) = a.toolCalls.map (fun tc => tc.id))
    (h : OutcomesMatch msgs) :
    OutcomesMatch (a :: t :: msgs) := by
  intro k m' hm' hr hc
  cases k with
  | zero =>
    simp at hm'
    subst hm'
    exact ⟨t, by simp, ht, hmap⟩
  | succ k =>
    cases k with
    | zero =>
      simp at hm'
      subst hm'
      rw [ht] at hr
      exact absurd hr (by simp)
    | succ k =>
      simp only [List.getElem?_cons_succ] at hm' ⊢
      exact h k m' hm' hr hc

theorem agentLoop_outcomesMatch (provider : Nat → List AIStreamChunk)
    (executor : String → Json → ToolResultRec) :
    ∀ fuel i, OutcomesMatch (agentLoop provider executor fuel i).2.1 := by
  intro fuel
  induction fuel with
  | zero => intro i; exact outcomesMatch_nil
  | succ fuel ih =>
    intro i
    rcases hpc : processChunks (provider i) with ⟨evs, fc, tcs, err⟩
    rcases hrec : agentLoop provider executor fuel (i + 1) with ⟨evs2, msgs2, n2⟩
    have ih' := ih (i + 1)
    rw [hrec] at ih'
    cases err with
    | some e => simp [agentLoop, hpc]; exact outcomesMatch_nil
    | none =>
      by_cases htc : tcs = []
      · simp only [agentLoop, hpc, htc, if_pos rfl]
        exact outcomesMatch_cons_nocalls _ _ rfl outcomesMatch_nil
      · simp only [agentLoop, hpc, hrec, if_neg htc]
        refine outcomesMatch_cons_pair _ _ _ rfl ?_ ih'
        simp [List.map_map, Function.comp_def]

theorem runAgent_eq (provider : Nat → List AIStreamChunk)
    (executor : String → Json → ToolResultRec)
    (maxIterations : Option Nat) (userMessage : String) :
    runAgent provider executor maxIterations userMessage
      = ((agentLoop provider executor (effectiveMaxIterations maxIterations) 0).1,
         { role := Role.user, content := userMessage }
           :: (agentLoop provider executor (effectiveMaxIterations maxIterations) 0).2.1,
         (agentLoop provider executor (effectiveMaxIterations maxIterations) 0).2.2) := by
  rcases h : agentLoop provider executor (effectiveMaxIterations maxIterations) 0 with ⟨a, b, c⟩
  simp [runAgent, h]

theorem processChunks_no_error (cs : List AIStreamChunk)
    (h : ∀ c ∈ cs, c.isErrorChunk = false) :
    (processChunks cs).2.2.2 = none := by
  induction cs with
  | nil => rfl
  | cons c rest ih =>
    have hrest : ∀ x ∈ rest, x.isErrorChunk = false :=
      fun x hx => h x (List.mem_cons_of_mem _ hx)
    rcases hpc : processChunks rest with ⟨evs, fc, tcs, err⟩
    have herr : err = none := by
      have := ih hrest
      rw [hpc] at this
      exact this
    subst herr
    cases c with
    | content s => simp [processChunks, hpc]
    | tool_call tc => simp [processChunks, hpc]
    | done => simp [processChunks, hpc]
    | error e => exact absurd (h _ (List.mem_cons_self _ _)) (by simp [AIStreamChunk.isErrorChunk])

theorem processChunks_has_toolCall (cs : List AIStreamChunk)
    (hne : ∀ c ∈ cs, c.isErrorChunk = false)
    (hex : ∃ c ∈ cs, c.isToolCallChunk = true) :
    (processChunks cs).2.2.1 ≠ [] := by
  induction cs with
  | nil => rcases hex with ⟨c, hc, _⟩; simp at hc
  | cons c rest ih =>
    have hrest : ∀ x ∈ rest, x.isErrorChunk = false :=
      fun x hx => hne x (List.mem_cons_of_mem _ hx)
    rcases hpc : processChunks rest with ⟨evs, fc, tcs, err⟩
    cases c with
    | content s =>
      have hex' : ∃ x ∈ rest, x.isToolCallChunk = true := by
        rcases hex with ⟨x, hx, hxt⟩
        rcases List.mem_cons.mp hx with h1 | h2
        · subst h1; simp [AIStreamChunk.isToolCallChunk] at hxt
        · exact ⟨x, h2, hxt⟩
      have := ih hrest hex'
      rw [hpc] at this
      simpa [processChunks, hpc] using this
    | tool_call tc => simp [processChunks, hpc]
    | done =>
      have hex' : ∃ x ∈ rest, x.isToolCallChunk = true := by
        rcases hex with ⟨x, hx, hxt⟩
        rcases List.mem_cons.mp hx with h1 | h2
        · subst h1; simp [AIStreamChunk.isToolCallChunk] at hxt
        · exact ⟨x, h2, hxt⟩
      have := ih hrest hex'
      rw [hpc] at this
      simpa [processChunks, hpc] using this
    | error e =>
      exact absurd (hne _ (List.mem_cons_self _ _)) (by simp [AIStreamChunk.isErrorChunk])

theorem agentLoop_cap (provider : Nat → List AIStreamChunk)
    (executor : String → Json → ToolResultRec)
    (hp : ∀ i, (∀ c ∈ provider i, c.isErrorChunk = false)
      ∧ ∃ c ∈ provider i, c.isToolCallChunk = true) :
    ∀ fuel i, (agentLoop provider executor fuel i).2.2 = fuel
      ∧ (agentLoop provider executor fuel i).1.getLast?
          = some (AgentEvent.error "Maximum iterations reached") := by
  intro fuel
  induction fuel with
  | zero => intro i; exact ⟨rfl, rfl⟩
  | succ fuel ih =>
    intro i
    rcases hpc : processChunks (provider i) with ⟨evs, fc, tcs, err⟩
    have herr : err = none := by
      have := processChunks_no_error _ (hp i).1
      rw [hpc] at this
      exact this
    have htcs : tcs ≠ [] := by
      have := processChunks_has_toolCall _ (hp i).1 (hp i).2
      rw [hpc] at this
      exact this
    subst herr
    rcases hrec : agentLoop provider executor fuel (i + 1) with ⟨evs2, msgs2, n2⟩
    have ih' := ih (i + 1)
    rw [hrec] at ih'
    have hne2 : evs2 ≠ [] := by
      intro hh
      rw [hh] at ih'
      simp at ih'
    constructor
    · simp only [agentLoop, hpc, hrec, if_neg htcs]
      exact congrArg (· + 1) ih'.1
    · simp only [agentLoop, hpc, hrec, if_neg htcs]
      have hsplit :
          (AgentEvent.thinking :: evs
              ++ tcs.map (fun tc =>
                   let r := { executor tc.name tc.arguments with toolCallId := tc.id }
                   AgentEvent.tool_result tc.name r.result r.isError)
              ++ evs2)
            = (AgentEvent.thinking :: evs
                ++ tcs.map (fun tc =>
                     let r := { executor tc.name tc.arguments with toolCallId := tc.id }
                     AgentEvent.tool_result tc.name r.result r.isError))
              ++ evs2 := by
        simp
      rw [hsplit, List.getLast?_append_of_ne_nil _ hne2]
      exact ih'.2

/-- C1: in every run of the agent loop (any provider behavior, any executor,
any iteration configuration), whenever the persisted history contains an
assistant turn with tool invocations, the very next persisted turn is a tool
turn whose outcomes are exactly one per invocation, in order, each carrying
the identifier of the invocation it answers (so no orphaned invocations and
no duplicated outcomes). -/
theorem assistant_turn_followed_by_matching_tool_turn
    (provider : Nat → List AIStreamChunk) (executor : String → Json → ToolResultRec)
    (maxIterations : Option Nat) (userMessage : String) (k : Nat) (m : PersistedMsg)
    (hm : ((runAgent provider executor maxIterations userMessage).2.1)[k]? = some m)
    (hrole : m.role = Role.assistant) (hcalls : m.toolCalls ≠ []) :
    ∃ m', ((runAgent provider executor maxIterations userMessage).2.1)[k + 1]? = some m'
      ∧ m'.role = Role.tool
      ∧ m'.toolResults.map (fun r => r.toolCallId) = m.toolCalls.map (fun tc => tc.id) := by
  have hOM : OutcomesMatch ((runAgent provider executor maxIterations userMessage).2.1) := by
    rw [runAgent_eq]
    exact outcomesMatch_cons_skip _ _ (by simp) (agentLoop_outcomesMatch provider executor _ _)
  exact hOM k m hm hrole hcalls

/-- C1 witness: a concrete two-round run (one tool call, then a plain
answer); the assistant turn at index 1 carries one invocation and the turn at
index 2 is the tool turn answering it. -/
theorem assistant_turn_followed_by_matching_tool_turn_witness :
    ∃ m', ((runAgent stubProvider stubExecutor none "list files").2.1)[1 + 1]? = some m'
      ∧ m'.role = Role.tool
      ∧ m'.toolResults.map (fun r => r.toolCallId)
          = ({ role := Role.assistant, content := "", toolCalls := [stubToolCall] }
              : PersistedMsg).toolCalls.map (fun tc => tc.id) :=
  assistant_turn_followed_by_matching_tool_turn stubProvider stubExecutor none "list files" 1
    { role := Role.assistant, content := "", toolCalls := [stubToolCall] }
    (by rfl) (by rfl) (by decide)

/-- C3: against a provider whose every streamed completion requests at least
one tool call (and never errors), a single `Agent.run` invocation performs
exactly the configured number of provider round-trips — `maxIterations` when
configured non-zero, 10 by default (a falsy `0` also coerces to 10) — and its
event stream terminates with the iteration-cap error event; the model makes
no provider calls after that (the loop returns). -/
theorem iteration_cap_exact_roundtrips
    (provider : Nat → List AIStreamChunk) (executor : String → Json → ToolResultRec)
    (maxIterations : Option Nat) (userMessage : String)
    (hp : ∀ i, (∀ c ∈ provider i, c.isErrorChunk = false)
      ∧ ∃ c ∈ provider i, c.isToolCallChunk = true) :
    (runAgent provider executor maxIterations userMessage).2.2
        = effectiveMaxIterations maxIterations
    ∧ (runAgent provider executor maxIterations userMessage).1.getLast?
        = some (AgentEvent.error "Maximum iterations reached") := by
  rw [runAgent_eq]
  exact agentLoop_cap provider executor hp (effectiveMaxIterations maxIterations) 0

/-- C3 witness: a provider stub that always requests one tool call, with a
configured cap of 3: exactly 3 round-trips, then the cap error. -/
theorem iteration_cap_exact_roundtrips_witness :
    (runAgent stubLoopingProvider stubExecutor (some 3) "x").2.2
        = effectiveMaxIterations (some 3)
    ∧ (runAgent stubLoopingProvider stubExecutor (some 3) "x").1.getLast?
        = some (AgentEvent.error "Maximum iterations reached") :=
  iteration_cap_exact_roundtrips stubLoopingProvider stubExecutor (some 3) "x"
    (fun i =>
      ⟨by intro c hc; simp [stubLoopingProvider] at hc; subst hc; rfl,
       ⟨AIStreamChunk.tool_call stubToolCall, by simp [stubLoopingProvider], rfl⟩⟩)

/-! ## System-prompt extraction lemmas -/

theorem strings_eq_of_data (a b : String) (h : a.data = b.data) : a = b := by
  cases a
  cases b
  exact congrArg String.mk h

theorem anthropicGo_sys (msgs : List AIMessage) :
    ∀ sys0, (anthropicGo sys0 msgs).1
      = (if systemContents msgs = [] then sys0
         else some (sys0.getD "" ++ concatWithNewlines (systemContents msgs))) := by
  induction msgs with
  | nil => intro sys0; simp [anthropicGo, systemContents]
  | cons m rest ih =>
    intro sys0
    by_cases hs : m.role = Role.system
    · have hsys : systemContents (m :: rest) = m.content :: systemContents rest := by
        simp [systemContents, hs]
      have hstep : anthropicGo sys0 (m :: rest)
          = anthropicGo (some (sys0.getD "" ++ m.content ++ "\n")) rest := by
        simp [anthropicGo, hs]
      rw [hstep, ih, hsys]
      by_cases hrest : systemContents rest = []
      · rw [if_pos hrest, if_neg (by simp), hrest]
        refine congrArg some (strings_eq_of_data _ _ ?_)
        simp [concatWithNewlines, String.data_append]
      · rw [if_neg hrest, if_neg (by simp)]
        refine congrArg some (strings_eq_of_data _ _ ?_)
        simp [concatWithNewlines, String.data_append]
    · have hsys : systemContents (m :: rest) = systemContents rest := by
        simp [systemContents, hs]
      rcases hgo : anthropicGo sys0 rest with ⟨s', ms⟩
      have h1 := ih sys0
      rw [hgo] at h1
      rw [hsys]
      by_cases h2 : m.role = Role.tool ∧ m.toolResults.isSome
      · have hstep : (anthropicGo sys0 (m :: rest)).1 = s' := by
          simp [anthropicGo, hs, h2, hgo]
        rw [hstep]; exact h1
      · by_cases h3 : m.toolCalls ≠ []
        · have hstep : (anthropicGo sys0 (m :: rest)).1 = s' := by
            simp [anthropicGo, hs, h2, h3, hgo]
          rw [hstep]; exact h1
        · have hstep : (anthropicGo sys0 (m :: rest)).1 = s' := by
            simp [anthropicGo, hs, h2, h3, hgo]
          rw [hstep]; exact h1

theorem getLast?_cons_eq {α : Type} (a : α) (l : List α) :
    (a :: l).getLast? = match l.getLast? with | some c => some c | none => some a := by
  cases l with
  | nil => rfl
  | cons b bs =>
    rw [List.getLast?_cons_cons]
    cases h : (b :: bs).getLast? with
    | some c => rfl
    | none =>
      rw [List.getLast?_eq_none_iff] at h
      exact absurd h (by simp)

theorem googleGo_sys (msgs : List AIMessage) :
    ∀ sys0, (googleGo sys0 msgs).1
      = (match (systemContents msgs).getLast? with
         | some c => some c
         | none => sys0) := by
  induction msgs with
  | nil => intro sys0; simp [googleGo, systemContents]
  | cons m rest ih =>
    intro sys0
    by_cases hs : m.role = Role.system
    · have hsys : systemContents (m :: rest) = m.content :: systemContents rest := by
        simp [systemContents, hs]
      have hstep : googleGo sys0 (m :: rest) = googleGo (some m.content) rest := by
        simp [googleGo, hs]
      rw [hstep, ih, hsys, getLast?_cons_eq]
      cases (systemContents rest).getLast? <;> rfl
    · have hsys : systemContents (m :: rest) = systemContents rest := by
        simp [systemContents, hs]
      rcases hgo : googleGo sys0 rest with ⟨s', ms⟩
      have h1 := ih sys0
      rw [hgo] at h1
      rw [hsys]
      by_cases h2 : m.role = Role.tool ∧ m.toolResults.isSome
      · have hstep : (googleGo sys0 (m :: rest)).1 = s' := by
          simp [googleGo, hs, h2, hgo]
        rw [hstep]; exact h1
      · by_cases h3 : m.toolCalls ≠ []
        · have hstep : (googleGo sys0 (m :: rest)).1 = s' := by
            simp [googleGo, hs, h2, h3, hgo]
          rw [hstep]; exact h1
        · have hstep : (googleGo sys0 (m :: rest)).1 = s' := by
            simp [googleGo, hs, h2, h3, hgo]
          rw [hstep]; exact h1

/-- C8 (amended): of the two adapters that send the system prompt as a
separate top-level field, the Anthropic adapter concatenates all system turns
of the history in order, newline-terminated and trimmed of leading/trailing
whitespace, while the Google adapter keeps only the last system turn,
untrimmed (each overwrites the previous). -/
theorem system_field_extraction_per_adapter (messages : List AIMessage) :
    (anthropicFormatMessages messages).1
      = (if systemContents messages = [] then none
         else some (trimS (concatWithNewlines (systemContents messages))))
    ∧ (googleFormatMessages messages).1 = (systemContents messages).getLast? := by
  constructor
  · rcases hgo : anthropicGo none messages with ⟨s', ms⟩
    have h := anthropicGo_sys messages none
    rw [hgo] at h
    simp only [anthropicFormatMessages, hgo]
    by_cases hsc : systemContents messages = []
    · rw [if_pos hsc] at h
      subst h
      rw [if_pos hsc]
      rfl
    · rw [if_neg hsc] at h
      subst h
      rw [if_neg hsc]
      refine congrArg some (strings_eq_of_data _ _ ?_)
      simp [trimS, String.data_append]
  · have h := googleGo_sys messages none
    simp only [googleFormatMessages]
    rw [h]
    cases (systemContents messages).getLast? <;> rfl

/-! ## Regex / line-splitting lemmas for `setEnvVariable` -/

theorem rmatchF_congr :
    ∀ f1 f2 pat s, pat.length + s.length < f1 → pat.length + s.length < f2 →
      rmatchF f1 pat s = rmatchF f2 pat s := by
  intro f1
  induction f1 with
  | zero => intro f2 pat s h1 _; omega
  | succ f1 ih =>
    intro f2 pat s h1 h2
    cases f2 with
    | zero => omega
    | succ f2 =>
      cases pat with
      | nil => rfl
      | cons p ps =>
        simp only [rmatchF]
        by_cases hstar : ps.head? = some '*'
        · rw [if_pos hstar, if_pos hstar]
          cases ps with
          | nil => simp at hstar
          | cons q ps' =>
            have e1 : rmatchF f1 (q :: ps').tail s = rmatchF f2 (q :: ps').tail s := by
              apply ih <;> (simp at h1 h2 ⊢; omega)
            cases s with
            | nil => rw [e1]
            | cons c cs =>
              have e2 : rmatchF f1 (p :: q :: ps') cs = rmatchF f2 (p :: q :: ps') cs := by
                apply ih <;> (simp at h1 h2 ⊢; omega)
              dsimp only
              rw [e1, e2]
        · rw [if_neg hstar, if_neg hstar]
          by_cases hplus : ps.head? = some '+'
          · rw [if_pos hplus, if_pos hplus]
            cases ps with
            | nil => simp at hplus
            | cons q ps' =>
              cases s with
              | nil => rfl
              | cons c cs =>
                have e2 : rmatchF f1 (p :: '*' :: (q :: ps').tail) cs
                    = rmatchF f2 (p :: '*' :: (q :: ps').tail) cs := by
                  apply ih <;> (simp at h1 h2 ⊢; omega)
                dsimp only
                rw [e2]
          · rw [if_neg hplus, if_neg hplus]
            cases s with
            | nil => rfl
            | cons c cs =>
              have e2 : rmatchF f1 ps cs = rmatchF f2 ps cs := by
                apply ih <;> (simp at h1 h2 ⊢; omega)
              dsimp only
              rw [e2]

theorem rmatch_nil (s : List Char) : rmatch [] s = s.isEmpty := rfl

theorem rmatch_cons (p : Char) (ps : List Char) (s : List Char) :
    rmatch (p :: ps) s
      = (if ps.head? = some '*' then
          rmatch ps.tail s ||
            (match s with
             | [] => false
             | c :: cs => charMatch p c && rmatch (p :: ps) cs)
        else if ps.head? = some '+' then
          (match s with
           | [] => false
           | c :: cs => charMatch p c && rmatch (p :: '*' :: ps.tail) cs)
        else
          (match s with
           | [] => false
           | c :: cs => charMatch p c && rmatch ps cs)) := by
  show rmatchF ((p :: ps).length + s.length + 1) (p :: ps) s = _
  simp only [rmatchF]
  by_cases hstar : ps.head? = some '*'
  · rw [if_pos hstar, if_pos hstar]
    cases ps with
    | nil => simp at hstar
    | cons q ps' =>
      have e1 : rmatchF ((p :: q :: ps').length + s.length) (q :: ps').tail s
          = rmatch (q :: ps').tail s := by
        apply rmatchF_congr <;> (simp; try omega)
      cases s with
      | nil => rw [e1]
      | cons c cs =>
        have e2 : rmatchF ((p :: q :: ps').length + (c :: cs).length) (p :: q :: ps') cs
            = rmatch (p :: q :: ps') cs := by
          apply rmatchF_congr <;> (simp; try omega)
        dsimp only
        rw [e1, e2]
  · rw [if_neg hstar, if_neg hstar]
    by_cases hplus : ps.head? = some '+'
    · rw [if_pos hplus, if_pos hplus]
      cases ps with
      | nil => simp at hplus
      | cons q ps' =>
        cases s with
        | nil => rfl
        | cons c cs =>
          have e2 : rmatchF ((p :: q :: ps').length + (c :: cs).length)
              (p :: '*' :: (q :: ps').tail) cs = rmatch (p :: '*' :: (q :: ps').tail) cs := by
            apply rmatchF_congr <;> (simp; try omega)
          dsimp only
          rw [e2]
    · rw [if_neg hplus, if_neg hplus]
      cases s with
      | nil => rfl
      | cons c cs =>
        have e2 : rmatchF ((p :: ps).length + (c :: cs).length) ps cs = rmatch ps cs := by
          apply rmatchF_congr <;> (simp; try omega)
        dsimp only
        rw [e2]

theorem rmatch_dotstar : ∀ s, rmatch ['.', '*'] s = true := by
  intro s
  induction s with
  | nil => rw [rmatch_cons]; simp [rmatch_nil]
  | cons c cs ih => rw [rmatch_cons]; simp [rmatch_nil, charMatch, ih]

theorem rmatch_literal_step (p : Char) (ps : List Char)
    (h1 : ps.head? ≠ some '*') (h2 : ps.head? ≠ some '+') (s : List Char) :
    rmatch (p :: ps) s
      = match s with
        | [] => false
        | c :: cs => charMatch p c && rmatch ps cs := by
  rw [rmatch_cons, if_neg h1, if_neg h2]

theorem startsWithL_nil_right (t : List Char) : startsWithL t [] = true := by
  cases t <;> rfl

theorem startsWithL_append_self : ∀ (pre t : List Char), startsWithL (pre ++ t) pre = true := by
  intro pre
  induction pre with
  | nil => intro t; exact startsWithL_nil_right _
  | cons p ps ih => intro t; simp [startsWithL, ih]

theorem startsWithL_iff : ∀ (pre line : List Char),
    startsWithL line pre = true ↔ ∃ t, line = pre ++ t := by
  intro pre
  induction pre with
  | nil =>
    intro line
    simp [startsWithL]
  | cons p ps ih =>
    intro line
    cases line with
    | nil =>
      simp only [startsWithL]
      constructor
      · intro h; exact absurd h (by simp)
      · rintro ⟨t, ht⟩; exact absurd ht (by simp)
    | cons c cs =>
      simp only [startsWithL, Bool.and_eq_true, decide_eq_true_eq, ih]
      constructor
      · rintro ⟨rfl, t, rfl⟩; exact ⟨t, rfl⟩
      · rintro ⟨t, ht⟩
        injection ht with h1 h2
        exact ⟨h1, t, h2⟩

theorem safe_not_special (c : Char) (h : isSafeKeyChar c = true) :
    c ≠ '.' ∧ c ≠ '*' ∧ c ≠ '+' ∧ c ≠ '\n' ∧ c ≠ '$' := by
  refine ⟨?_, ?_, ?_, ?_, ?_⟩ <;> (rintro rfl; exact absurd h (by decide))

theorem charMatch_of_not_dot (k c : Char) (h : k ≠ '.') :
    charMatch k c = decide (c = k) := by
  simp [charMatch, h, eq_comm]

theorem rmatch_safe_key (key : List Char) (hkey : ∀ c ∈ key, isSafeKeyChar c = true) :
    ∀ line, lineMatchesKey key line = startsWithL line (key ++ ['=']) := by
  induction key with
  | nil =>
    intro line
    cases line with
    | nil =>
      rw [show lineMatchesKey [] [] = rmatch ('=' :: '.' :: '*' :: []) [] from rfl, rmatch_cons]
      simp [startsWithL]
    | cons c cs =>
      show rmatch ['=', '.', '*'] (c :: cs) = startsWithL (c :: cs) ['=']
      rw [rmatch_literal_step '=' ['.', '*'] (by simp) (by simp)]
      show (charMatch '=' c && rmatch ['.', '*'] cs) = (decide (c = '=') && startsWithL cs [])
      rw [rmatch_dotstar, charMatch_of_not_dot '=' c (by decide), startsWithL_nil_right]
  | cons k key' ih =>
    intro line
    have hk := hkey k (List.mem_cons_self _ _)
    have hspec := safe_not_special k hk
    have hhead : ((key' ++ '=' :: '.' :: '*' :: []).head? ≠ some '*')
        ∧ ((key' ++ '=' :: '.' :: '*' :: []).head? ≠ some '+') := by
      cases key' with
      | nil => simp
      | cons k2 key'' =>
        have hs2 := safe_not_special k2 (hkey k2 (by simp))
        simp [hs2.2.1, hs2.2.2.1]
    have hred := rmatch_literal_step k (key' ++ '=' :: '.' :: '*' :: []) hhead.1 hhead.2 line
    show rmatch ((k :: key') ++ '=' :: '.' :: '*' :: []) line = _
    rw [List.cons_append, hred]
    cases line with
    | nil => rfl
    | cons c cs =>
      have ihc := ih (fun x hx => hkey x (List.mem_cons_of_mem _ hx)) cs
      show (charMatch k c && rmatch (key' ++ '=' :: '.' :: '*' :: []) cs)
          = (decide (c = k) && startsWithL cs (key' ++ ['=']))
      rw [show rmatch (key' ++ '=' :: '.' :: '*' :: []) cs
            = lineMatchesKey key' cs from rfl, ihc,
          charMatch_of_not_dot k c hspec.1]

theorem splitOnChar_cons_sep (sep : Char) (rest : List Char) :
    splitOnChar sep (sep :: rest) = [] :: splitOnChar sep rest := by
  simp [splitOnChar]

theorem splitOnChar_cons_ne (sep c : Char) (h : c ≠ sep) (rest : List Char) :
    splitOnChar sep (c :: rest)
      = (match splitOnChar sep rest with
         | [] => [[c]]
         | l :: ls => (c :: l) :: ls) := by
  simp [splitOnChar, h]

theorem splitOnChar_ne_nil (sep : Char) : ∀ cs, splitOnChar sep cs ≠ [] := by
  intro cs
  cases cs with
  | nil => simp [splitOnChar]
  | cons c rest =>
    by_cases h : c = sep
    · simp [splitOnChar, h]
    · simp only [splitOnChar, if_neg h]
      cases hs : splitOnChar sep rest <;> simp

theorem mem_splitOnChar_no_sep (sep : Char) :
    ∀ cs l, l ∈ splitOnChar sep cs → sep ∉ l := by
  intro cs
  induction cs with
  | nil =>
    intro l hl
    simp [splitOnChar] at hl
    subst hl
    simp
  | cons c rest ih =>
    intro l hl
    by_cases h : c = sep
    · simp only [splitOnChar, if_pos h] at hl
      rcases List.mem_cons.mp hl with h1 | h2
      · subst h1; simp
      · exact ih l h2
    · simp only [splitOnChar, if_neg h] at hl
      cases hs : splitOnChar sep rest with
      | nil => exact absurd hs (splitOnChar_ne_nil sep rest)
      | cons m ms =>
        rw [hs] at hl
        rcases List.mem_cons.mp hl with h1 | h2
        · subst h1
          intro hmem
          rcases List.mem_cons.mp hmem with h3 | h4
          · exact h h3.symm
          · exact ih m (by rw [hs]; exact List.mem_cons_self _ _) h4
        · exact ih l (by rw [hs]; exact List.mem_cons_of_mem _ h2)

theorem splitOnChar_append_sep (sep : Char) :
    ∀ a b, splitOnChar sep (a ++ sep :: b) = splitOnChar sep a ++ splitOnChar sep b := by
  intro a
  induction a with
  | nil => intro b; simp [splitOnChar_cons_sep, splitOnChar]
  | cons c rest ih =>
    intro b
    by_cases h : c = sep
    · subst h
      rw [List.cons_append, splitOnChar_cons_sep, splitOnChar_cons_sep, ih]
      rfl
    · rw [List.cons_append, splitOnChar_cons_ne sep c h, splitOnChar_cons_ne sep c h, ih]
      cases hs : splitOnChar sep rest with
      | nil => exact absurd hs (splitOnChar_ne_nil sep rest)
      | cons m ms => simp

theorem splitOnChar_no_sep (sep : Char) :
    ∀ cs, sep ∉ cs → splitOnChar sep cs = [cs] := by
  intro cs
  induction cs with
  | nil => intro _; rfl
  | cons c rest ih =>
    intro h
    have hc : c ≠ sep := fun hh => h (by rw [hh]; exact List.mem_cons_self _ _)
    simp only [splitOnChar, if_neg hc]
    rw [ih (fun hh => h (List.mem_cons_of_mem _ hh))]

theorem splitOnChar_joinWith (sep : Char) :
    ∀ ls, ls ≠ [] → (∀ l ∈ ls, sep ∉ l) → splitOnChar sep (joinWith sep ls) = ls := by
  intro ls
  induction ls with
  | nil => intro h; exact absurd rfl h
  | cons l rest ih =>
    intro _ hall
    cases rest with
    | nil =>
      show splitOnChar sep (joinWith sep [l]) = [l]
      rw [show joinWith sep [l] = l from rfl]
      exact splitOnChar_no_sep sep l (hall l (by simp))
    | cons l2 rest' =>
      rw [show joinWith sep (l :: l2 :: rest') = l ++ sep :: joinWith sep (l2 :: rest') from rfl]
      rw [splitOnChar_append_sep, splitOnChar_no_sep sep l (hall l (by simp)),
          ih (by simp) (fun x hx => hall x (List.mem_cons_of_mem _ hx))]
      rfl

theorem splitOnChar_head_first (sep : Char) :
    ∀ cs l0 ls, splitOnChar sep cs = l0 :: ls → ∃ y, cs = l0 ++ y := by
  intro cs
  induction cs with
  | nil =>
    intro l0 ls h
    simp [splitOnChar] at h
    exact ⟨[], by simp [h.1.symm]⟩
  | cons c rest ih =>
    intro l0 ls h
    by_cases hc : c = sep
    · simp only [splitOnChar, if_pos hc] at h
      injection h with h1 _
      exact ⟨c :: rest, by simp [h1.symm]⟩
    · simp only [splitOnChar, if_neg hc] at h
      cases hs : splitOnChar sep rest with
      | nil => exact absurd hs (splitOnChar_ne_nil sep rest)
      | cons m ms =>
        rw [hs] at h
        injection h with h1 h2
        rcases ih m ms hs with ⟨y, hy⟩
        refine ⟨y, ?_⟩
        rw [← h1]
        simp [hy]

theorem mem_splitOnChar_infix (sep : Char) :
    ∀ cs l, l ∈ splitOnChar sep cs → ∃ x y, cs = x ++ l ++ y := by
  intro cs
  induction cs with
  | nil =>
    intro l hl
    simp [splitOnChar] at hl
    exact ⟨[], [], by simp [hl]⟩
  | cons c rest ih =>
    intro l hl
    by_cases hc : c = sep
    · simp only [splitOnChar, if_pos hc] at hl
      rcases List.mem_cons.mp hl with h1 | h2
      · exact ⟨[], c :: rest, by simp [h1]⟩
      · rcases ih l h2 with ⟨x, y, hxy⟩
        exact ⟨c :: x, y, by simp [hxy]⟩
    · simp only [splitOnChar, if_neg hc] at hl
      cases hs : splitOnChar sep rest with
      | nil => exact absurd hs (splitOnChar_ne_nil sep rest)
      | cons m ms =>
        rw [hs] at hl
        rcases List.mem_cons.mp hl with h1 | h2
        · subst h1
          rcases splitOnChar_head_first sep rest m ms hs with ⟨y, hy⟩
          exact ⟨[], y, by simp [hy]⟩
        · rcases ih l (by rw [hs]; exact List.mem_cons_of_mem _ h2) with ⟨x, y, hxy⟩
          exact ⟨c :: x, y, by simp [hxy]⟩

theorem trimL_infix (cs : List Char) : ∃ x y, cs = x ++ trimL cs ++ y := by
  refine ⟨cs.takeWhile isWsChar,
    ((cs.dropWhile isWsChar).reverse.takeWhile isWsChar).reverse, ?_⟩
  conv_lhs => rw [← List.takeWhile_append_dropWhile isWsChar cs]
  rw [List.append_assoc]
  congr 1
  have h := congrArg List.reverse
    (List.takeWhile_append_dropWhile isWsChar (cs.dropWhile isWsChar).reverse)
  rw [List.reverse_append, List.reverse_reverse] at h
  exact h.symm

theorem replaceFirstLine_append_no_match (p : List Char → Bool) (n : List Char) :
    ∀ A B, (∀ l ∈ A, p l = false) →
      replaceFirstLine p n (A ++ B) = A ++ replaceFirstLine p n B := by
  intro A
  induction A with
  | nil => intro B _; rfl
  | cons a as ih =>
    intro B h
    have ha : p a = false := h a (List.mem_cons_self _ _)
    simp only [List.cons_append, replaceFirstLine, ha]
    simp [ih B (fun l hl => h l (List.mem_cons_of_mem _ hl))]

theorem startsWithL_nil_of_ne_nil (pre : List Char) (h : pre ≠ []) :
    startsWithL [] pre = false := by
  cases pre with
  | nil => exact absurd rfl h
  | cons a l => rfl

theorem upsertEnvL_twice (key v1 v2 c0 : List Char)
    (hkey : ∀ c ∈ key, isSafeKeyChar c = true)
    (hv1 : '\n' ∉ v1) (hv2 : '\n' ∉ v2)
    (hc0 : ¬ ∃ x y, c0 = x ++ (key ++ ['=']) ++ y) :
    (splitLinesL (upsertEnvL key v2 (upsertEnvL key v1 c0))).filter
        (fun l => startsWithL l (key ++ ['=']))
      = [key ++ '=' :: v2] := by
  have hchar := rmatch_safe_key key hkey
  have hkeyn : '\n' ∉ key := fun hn => absurd (hkey _ hn) (by decide)
  have hkv1 : '\n' ∉ (key ++ '=' :: v1) := by
    intro hmem
    rcases List.mem_append.mp hmem with h | h
    · exact hkeyn h
    · rcases List.mem_cons.mp h with h | h
      · exact absurd h (by decide)
      · exact hv1 h
  have hkv2 : '\n' ∉ (key ++ '=' :: v2) := by
    intro hmem
    rcases List.mem_append.mp hmem with h | h
    · exact hkeyn h
    · rcases List.mem_cons.mp h with h | h
      · exact absurd h (by decide)
      · exact hv2 h
  -- no line of the initial content carries the key
  have hnoc0 : ∀ l ∈ splitLinesL c0, lineMatchesKey key l = false := by
    intro l hl
    rw [hchar l]
    cases hx : startsWithL l (key ++ ['=']) with
    | false => rfl
    | true =>
      exfalso
      rcases (startsWithL_iff _ _).mp hx with ⟨t, rfl⟩
      rcases mem_splitOnChar_infix '\n' c0 _ hl with ⟨x, y, hxy⟩
      exact hc0 ⟨x, t ++ y, by rw [hxy]; simp [List.append_assoc]⟩
  have hany0 : (splitLinesL c0).any (lineMatchesKey key) = false :=
    List.any_eq_false.mpr (fun l hl => by rw [hnoc0 l hl]; simp)
  have h1 : upsertEnvL key v1 c0
      = trimL c0 ++ (if c0 ≠ [] then ['\n'] else []) ++ (key ++ '=' :: v1) ++ ['\n'] := by
    simp only [upsertEnvL, splitLinesL] at hany0 ⊢
    rw [hany0]
    simp
  -- the lines after the first call: a key-free prefix, the new line, one
  -- empty trailing line
  have hP : ∃ P, splitLinesL (upsertEnvL key v1 c0) = P ++ [key ++ '=' :: v1, []]
      ∧ (∀ l ∈ P, startsWithL l (key ++ ['=']) = false)
      ∧ (∀ l ∈ P, '\n' ∉ l) := by
    by_cases hnil : c0 = []
    · refine ⟨[], ?_, by simp, by simp⟩
      subst hnil
      rw [h1]
      simp only [splitLinesL]
      rw [show trimL [] ++ (if ([] : List Char) ≠ [] then ['\n'] else [])
            ++ (key ++ '=' :: v1) ++ ['\n']
          = (key ++ '=' :: v1) ++ '\n' :: [] from by simp [trimL]]
      rw [splitOnChar_append_sep, splitOnChar_no_sep '\n' _ hkv1]
      rfl
    · refine ⟨splitLinesL (trimL c0), ?_, ?_, ?_⟩
      · rw [h1, if_pos hnil]
        simp only [splitLinesL]
        rw [show trimL c0 ++ ['\n'] ++ (key ++ '=' :: v1) ++ ['\n']
            = trimL c0 ++ '\n' :: ((key ++ '=' :: v1) ++ '\n' :: []) from by simp]
        rw [splitOnChar_append_sep, splitOnChar_append_sep,
            splitOnChar_no_sep '\n' _ hkv1]
        rfl
      · intro l hl
        cases hx : startsWithL l (key ++ ['=']) with
        | false => rfl
        | true =>
          exfalso
          rcases (startsWithL_iff _ _).mp hx with ⟨t, rfl⟩
          rcases mem_splitOnChar_infix '\n' (trimL c0) _ hl with ⟨x, y, hxy⟩
          rcases trimL_infix c0 with ⟨x2, y2, hxy2⟩
          refine hc0 ⟨x2 ++ x, t ++ (y ++ y2), ?_⟩
          rw [hxy2, hxy]
          simp [List.append_assoc]
      · intro l hl
        exact mem_splitOnChar_no_sep '\n' (trimL c0) l hl
  rcases hP with ⟨P, hlines1, hPstart, hPnl⟩
  have hm1 : lineMatchesKey key (key ++ '=' :: v1) = true := by
    rw [hchar]
    rw [show key ++ '=' :: v1 = (key ++ ['=']) ++ v1 from by simp]
    exact startsWithL_append_self _ _
  have hany1 : (splitLinesL (upsertEnvL key v1 c0)).any (lineMatchesKey key) = true := by
    refine List.any_eq_true.mpr ⟨key ++ '=' :: v1, ?_, hm1⟩
    rw [hlines1]
    exact List.mem_append_right _ (List.mem_cons_self _ _)
  have h2 : upsertEnvL key v2 (upsertEnvL key v1 c0)
      = joinLinesL (replaceFirstLine (lineMatchesKey key) (key ++ '=' :: v2)
          (splitLinesL (upsertEnvL key v1 c0))) := by
    simp only [upsertEnvL, splitLinesL] at hany1 ⊢
    rw [hany1]
    simp
  have hrepl : replaceFirstLine (lineMatchesKey key) (key ++ '=' :: v2)
      (splitLinesL (upsertEnvL key v1 c0)) = P ++ [key ++ '=' :: v2, []] := by
    rw [hlines1]
    rw [replaceFirstLine_append_no_match _ _ P _
        (fun l hl => by rw [hchar l]; exact hPstart l hl)]
    simp [replaceFirstLine, hm1]
  have hlines2 : splitLinesL (upsertEnvL key v2 (upsertEnvL key v1 c0))
      = P ++ [key ++ '=' :: v2, []] := by
    rw [h2, hrepl]
    unfold splitLinesL joinLinesL
    apply splitOnChar_joinWith
    · simp
    · intro l hl
      rcases List.mem_append.mp hl with h | h
      · exact hPnl l h
      · rcases List.mem_cons.mp h with h | h
        · rw [h]; exact hkv2
        · simp at h
          rw [h]
          simp
  rw [hlines2, List.filter_append]
  rw [List.filter_eq_nil_iff.mpr
      (fun l hl => by rw [hPstart l hl]; simp)]
  have hsw2 : startsWithL (key ++ '=' :: v2) (key ++ ['=']) = true := by
    rw [show key ++ '=' :: v2 = (key ++ ['=']) ++ v2 from by simp]
    exact startsWithL_append_self _ _
  have hswnil : startsWithL [] (key ++ ['=']) = false :=
    startsWithL_nil_of_ne_nil _ (by simp)
  simp [hsw2, hswnil]

/-- C9 counterexample: the claim quantifies over every key, but
`setEnvVariable` builds its upsert regex from the raw key, so a key with a
regex metacharacter (here `A+B`: the pattern `^A+B=.*$` does not match the
literal line `A+B=...`) is appended again instead of replaced.  Starting from
an absent `.env`, two persisted calls with values `1` then `2` leave two
lines for the key, not one line holding the second value. -/
theorem setEnvVariable_regex_key_duplicates_line :
    ((setEnvVariable ((setEnvVariable
          ⟨"/p", fun _ => none, none⟩ "A+B" "1" none).1) "A+B" "2" none).1).envFile
      = some ("A+B=1\nA+B=2\n".data)
    ∧ ((splitLinesL ("A+B=1\nA+B=2\n".data)).filter
          (fun l => startsWithL l ("A+B".data ++ ['=']))).length = 2 := by
  refine ⟨by rfl, by rfl⟩

/-- C9 (amended): for every key made only of characters the interpolated
regex treats literally (letters, digits, underscore), every pair of
newline-free values (the second also free of `$`, which `String.replace`
would treat as a substitution pattern), and every initial `.env` content in
which `KEY=` does not occur, calling `set_env_variable` twice with
persistence enabled leaves the file with exactly one line for that key,
holding the value of the second call. -/
theorem setEnvVariable_upsert_idempotent_for_safe_keys
    (projectDir : String) (envVars0 : String → Option String)
    (envFile0 : Option (List Char)) (key v1 v2 : String)
    (hkey : ∀ c ∈ key.data, isSafeKeyChar c = true)
    (hv1 : '\n' ∉ v1.data) (hv2 : '\n' ∉ v2.data) (hd2 : '$' ∉ v2.data)
    (hc0 : ¬ ∃ x y, envFile0.getD [] = x ++ (key.data ++ ['=']) ++ y) :
    ∃ c2, ((setEnvVariable ((setEnvVariable
            ⟨projectDir, envVars0, envFile0⟩ key v1 none).1) key v2 none).1).envFile
        = some c2
      ∧ (splitLinesL c2).filter (fun l => startsWithL l (key.data ++ ['=']))
          = [key.data ++ '=' :: v2.data] := by
  refine ⟨upsertEnvL key.data v2.data (upsertEnvL key.data v1.data (envFile0.getD [])), ?_, ?_⟩
  · simp [setEnvVariable]
  · exact upsertEnvL_twice key.data v1.data v2.data (envFile0.getD []) hkey hv1 hv2 hc0

/-- C9 witness for the amended theorem: key `MY_KEY`, values `1` then `2`,
starting from an empty environment file. -/
theorem setEnvVariable_upsert_idempotent_for_safe_keys_witness :
    ∃ c2, ((setEnvVariable ((setEnvVariable
            ⟨"/p", fun _ => none, none⟩ "MY_KEY" "1" none).1) "MY_KEY" "2" none).1).envFile
        = some c2
      ∧ (splitLinesL c2).filter (fun l => startsWithL l ("MY_KEY".data ++ ['=']))
          = ["MY_KEY".data ++ '=' :: "2".data] :=
  setEnvVariable_upsert_idempotent_for_safe_keys "/p" (fun _ => none) none "MY_KEY" "1" "2"
    (by decide) (by decide) (by decide) (by decide)
    (by rintro ⟨x, y, h⟩; simp at h)

/-! ## JSON parse/stringify round-trip lemmas -/

theorem skipWs_not_ws (c : Char) (t : List Char) (h : isWsChar c = false) :
    skipWs (c :: t) = c :: t := by
  simp [skipWs, List.dropWhile, h]

theorem digit_not_ws (c : Char) (h : c.isDigit = true) : isWsChar c = false := by
  cases hx : isWsChar c
  · rfl
  · exfalso
    simp only [isWsChar, Bool.or_eq_true, decide_eq_true_eq] at hx
    obtain ((rfl | rfl) | rfl) | rfl := hx <;> exact absurd h (by decide)

theorem digit_facts (c : Char) (h : c.isDigit = true) :
    isWsChar c = false ∧ c ≠ '"' ∧ c ≠ '{' ∧ c ≠ '[' ∧ c ≠ 'n' ∧ c ≠ 't' ∧ c ≠ 'f'
      ∧ c ≠ '-' ∧ c ≠ ']' ∧ c ≠ '}' := by
  refine ⟨digit_not_ws c h, ?_, ?_, ?_, ?_, ?_, ?_, ?_, ?_, ?_⟩ <;>
    (rintro rfl; exact absurd h (by decide))

theorem natToCharsAux_eq (n : Nat) : ∀ acc, natToCharsAux n acc = natToChars n ++ acc := by
  induction n using Nat.strong_induction_on with
  | _ n ih =>
    intro acc
    by_cases h : n < 10
    · rw [natToCharsAux, dif_pos h,
        show natToChars n = digitChar n :: [] from by rw [natToChars, natToCharsAux, dif_pos h]]
      rfl
    · have hdiv : n / 10 < n := Nat.div_lt_self (by omega) (by omega)
      rw [natToCharsAux, dif_neg h, ih _ hdiv,
        show natToChars n = natToChars (n / 10) ++ [digitChar (n % 10)] from by
          rw [natToChars, natToCharsAux, dif_neg h, ih _ hdiv]]
      simp

theorem natToChars_ne_nil (n : Nat) : natToChars n ≠ [] := by
  by_cases h : n < 10
  · rw [natToChars, natToCharsAux, dif_pos h]
    simp
  · rw [natToChars, natToCharsAux, dif_neg h, natToCharsAux_eq]
    simp

theorem digitChar_isDigit (k : Nat) (h : k < 10) : (digitChar k).isDigit = true := by
  interval_cases k <;> decide

theorem digitVal_digitChar (k : Nat) (h : k < 10) : digitVal (digitChar k) = k := by
  interval_cases k <;> decide

theorem natToChars_all_digits (n : Nat) : ∀ c ∈ natToChars n, c.isDigit = true := by
  induction n using Nat.strong_induction_on with
  | _ n ih =>
    intro c hc
    by_cases h : n < 10
    · rw [natToChars, natToCharsAux, dif_pos h] at hc
      simp at hc
      subst hc
      exact digitChar_isDigit n h
    · rw [natToChars, natToCharsAux, dif_neg h, natToCharsAux_eq] at hc
      rcases List.mem_append.mp hc with h1 | h2
      · exact ih _ (Nat.div_lt_self (by omega) (by omega)) c h1
      · simp at h2
        subst h2
        exact digitChar_isDigit _ (Nat.mod_lt _ (by omega))

theorem digitsToNat_append_one (a : List Char) (d : Char) :
    digitsToNat (a ++ [d]) = 10 * digitsToNat a + digitVal d := by
  simp [digitsToNat, List.foldl_append]

theorem digitsToNat_natToChars (n : Nat) : digitsToNat (natToChars n) = n := by
  induction n using Nat.strong_induction_on with
  | _ n ih =>
    by_cases h : n < 10
    · rw [natToChars, natToCharsAux, dif_pos h]
      show digitsToNat [digitChar n] = n
      simp [digitsToNat, digitVal_digitChar n h]
    · rw [natToChars, natToCharsAux, dif_neg h, natToCharsAux_eq, digitsToNat_append_one,
        ih _ (Nat.div_lt_self (by omega) (by omega)),
        digitVal_digitChar _ (Nat.mod_lt _ (by omega))]
      omega

theorem takeWhile_append_all (p : Char → Bool) :
    ∀ (a rest : List Char), (∀ c ∈ a, p c = true) →
      (∀ c, rest.head? = some c → p c = false) →
      (a ++ rest).takeWhile p = a := by
  intro a
  induction a with
  | nil =>
    intro rest _ hrest
    cases rest with
    | nil => rfl
    | cons c t => simp [List.takeWhile_cons, hrest c rfl]
  | cons x a' ih =>
    intro rest hall hrest
    have hx : p x = true := hall x (by simp)
    simp [List.takeWhile_cons, hx, ih rest (fun c hc => hall c (by simp [hc])) hrest]

theorem parseStringBody_escape (s : List Char) :
    ∀ rest, parseStringBody (escapeString s ++ '"' :: rest) = some (s, rest) := by
  induction s with
  | nil =>
    intro rest
    show parseStringBody ('"' :: rest) = some ([], rest)
    unfold parseStringBody
    simp
  | cons c cs ih =>
    intro rest
    show parseStringBody (escapeChar c ++ escapeString cs ++ '"' :: rest) = some (c :: cs, rest)
    by_cases h1 : c = '"'
    · subst h1
      rw [show escapeChar '"' ++ escapeString cs ++ '"' :: rest
            = '\\' :: '"' :: (escapeString cs ++ '"' :: rest) from by simp [escapeChar]]
      simp [parseStringBody, ih rest, unescapeChar]
    · by_cases h2 : c = '\\'
      · subst h2
        rw [show escapeChar '\\' ++ escapeString cs ++ '"' :: rest
              = '\\' :: '\\' :: (escapeString cs ++ '"' :: rest) from by simp [escapeChar]]
        simp [parseStringBody, ih rest, unescapeChar]
      · by_cases h3 : c = '\n'
        · subst h3
          rw [show escapeChar '\n' ++ escapeString cs ++ '"' :: rest
                = '\\' :: 'n' :: (escapeString cs ++ '"' :: rest) from by simp [escapeChar]]
          simp [parseStringBody, ih rest, unescapeChar]
        · by_cases h4 : c = '\t'
          · subst h4
            rw [show escapeChar '\t' ++ escapeString cs ++ '"' :: rest
                  = '\\' :: 't' :: (escapeString cs ++ '"' :: rest) from by simp [escapeChar]]
            simp [parseStringBody, ih rest, unescapeChar]
          · by_cases h5 : c = '\r'
            · subst h5
              rw [show escapeChar '\r' ++ escapeString cs ++ '"' :: rest
                    = '\\' :: 'r' :: (escapeString cs ++ '"' :: rest) from by simp [escapeChar]]
              simp [parseStringBody, ih rest, unescapeChar]
            · rw [show escapeChar c ++ escapeString cs ++ '"' :: rest
                    = c :: (escapeString cs ++ '"' :: rest) from by
                  simp [escapeChar, h1, h2, h3, h4, h5]]
              unfold parseStringBody
              simp [h1, h2, ih rest]

theorem stringify_head_ok (j : Json) :
    ∃ c t, j.stringifyChars = c :: t ∧ (isWsChar c = false ∧ c ≠ ']' ∧ c ≠ '}') := by
  cases j with
  | num n =>
    by_cases h : n < 0
    · refine ⟨'-', natToChars n.natAbs, ?_, by decide⟩
      simp [Json.stringifyChars, intToChars, h]
    · cases hm : natToChars n.natAbs with
      | nil => exact absurd hm (natToChars_ne_nil _)
      | cons d t =>
        have hdd : d.isDigit = true := natToChars_all_digits _ d (by rw [hm]; simp)
        have hf := digit_facts d hdd
        refine ⟨d, t, ?_, hf.1, hf.2.2.2.2.2.2.2.2.1, hf.2.2.2.2.2.2.2.2.2⟩
        simp [Json.stringifyChars, intToChars, h, hm]
  | bool b => cases b <;> exact ⟨_, _, rfl, by decide⟩
  | arr xs => cases xs <;> exact ⟨_, _, rfl, by decide⟩
  | obj fs => cases fs <;> exact ⟨_, _, rfl, by decide⟩
  | null => exact ⟨_, _, rfl, by decide⟩
  | str s => exact ⟨_, _, rfl, by decide⟩

theorem Json.fuelV_pos (j : Json) : 1 ≤ j.fuelV := by
  cases j <;> simp [Json.fuelV]

mutual

theorem parse_stringify : ∀ (j : Json) (fuel : Nat) (rest : List Char),
    j.fuelV ≤ fuel → digitSafe rest →
    parseValue fuel (j.stringifyChars ++ rest) = some (j, rest)
  | j, 0, rest, hf, _ => by
      exact absurd hf (by have := Json.fuelV_pos j; omega)
  | .null, fuel + 1, rest, _, _ => by
      rw [show Json.stringifyChars .null ++ rest = 'n' :: 'u' :: 'l' :: 'l' :: rest from rfl]
      unfold parseValue
      rw [skipWs_not_ws _ _ (by decide)]
      simp [startsWithL]
  | .bool true, fuel + 1, rest, _, _ => by
      rw [show Json.stringifyChars (.bool true) ++ rest
          = 't' :: 'r' :: 'u' :: 'e' :: rest from rfl]
      unfold parseValue
      rw [skipWs_not_ws _ _ (by decide)]
      simp [startsWithL]
  | .bool false, fuel + 1, rest, _, _ => by
      rw [show Json.stringifyChars (.bool false) ++ rest
          = 'f' :: 'a' :: 'l' :: 's' :: 'e' :: rest from rfl]
      unfold parseValue
      rw [skipWs_not_ws _ _ (by decide)]
      simp [startsWithL]
  | .str s, fuel + 1, rest, _, _ => by
      rw [show Json.stringifyChars (.str s) ++ rest
          = '"' :: (escapeString s.data ++ '"' :: rest) from by
        simp [Json.stringifyChars]]
      unfold parseValue
      rw [skipWs_not_ws _ _ (by decide)]
      simp [parseStringBody_escape]
  | .num n, fuel + 1, rest, _, hd => by
      by_cases hn : n < 0
      · have hstr : Json.stringifyChars (.num n) = '-' :: natToChars n.natAbs := by
          simp [Json.stringifyChars, intToChars, hn]
        rw [hstr, List.cons_append]
        unfold parseValue
        rw [skipWs_not_ws _ _ (by decide)]
        dsimp only
        rw [if_neg (by decide), if_neg (by decide), if_neg (by decide)]
        rw [if_neg ?hn1, if_neg ?hn2, if_neg ?hn3, if_pos rfl]
        case hn1 =>
          cases hm : natToChars n.natAbs with
          | nil => exact absurd hm (natToChars_ne_nil _)
          | cons d t => simp [startsWithL]
        case hn2 =>
          cases hm : natToChars n.natAbs with
          | nil => exact absurd hm (natToChars_ne_nil _)
          | cons d t => simp [startsWithL]
        case hn3 =>
          cases hm : natToChars n.natAbs with
          | nil => exact absurd hm (natToChars_ne_nil _)
          | cons d t => simp [startsWithL]
        · have htake : (natToChars n.natAbs ++ rest).takeWhile Char.isDigit
              = natToChars n.natAbs :=
            takeWhile_append_all _ _ rest (natToChars_all_digits _) hd
          simp only [htake]
          rw [if_neg (natToChars_ne_nil _), List.drop_left, digitsToNat_natToChars]
          have : (n.natAbs : Int) = -n := Int.ofNat_natAbs_of_nonpos (by omega)
          rw [this]
          simp
      · have hstr : Json.stringifyChars (.num n) = natToChars n.natAbs := by
          simp [Json.stringifyChars, intToChars, hn]
        cases hm : natToChars n.natAbs with
        | nil => exact absurd hm (natToChars_ne_nil _)
        | cons d t =>
          have hdd : d.isDigit = true := natToChars_all_digits _ d (by rw [hm]; simp)
          have hfd := digit_facts d hdd
          rw [hstr, hm, List.cons_append]
          unfold parseValue
          rw [skipWs_not_ws _ _ hfd.1]
          dsimp only
          rw [if_neg hfd.2.1, if_neg hfd.2.2.1, if_neg hfd.2.2.2.1]
          rw [if_neg (by simp [startsWithL, hfd.2.2.2.2.1]),
              if_neg (by simp [startsWithL, hfd.2.2.2.2.2.1]),
              if_neg (by simp [startsWithL, hfd.2.2.2.2.2.2.1]),
              if_neg hfd.2.2.2.2.2.2.2.1, if_pos hdd]
          have htake : (d :: (t ++ rest)).takeWhile Char.isDigit = d :: t := by
            rw [show d :: (t ++ rest) = (d :: t) ++ rest from rfl]
            exact takeWhile_append_all _ (d :: t) rest
              (by rw [← hm]; exact natToChars_all_digits _) hd
          simp only [htake]
          have hdrop : (d :: (t ++ rest)).drop (d :: t).length = rest := by
            rw [show d :: (t ++ rest) = (d :: t) ++ rest from rfl]
            exact List.drop_left _ _
          rw [hdrop, ← hm, digitsToNat_natToChars]
          have : (n.natAbs : Int) = n := Int.natAbs_of_nonneg (by omega)
          rw [this]
  | .arr .nil, fuel + 1, rest, _, _ => by
      rw [show Json.stringifyChars (.arr .nil) ++ rest = '[' :: (']' :: rest) from rfl]
      unfold parseValue
      rw [skipWs_not_ws _ _ (by decide)]
      dsimp only
      rw [if_neg (by decide), if_neg (by decide), if_pos rfl]
      rw [skipWs_not_ws _ _ (by decide)]
      simp
  | .arr (.cons x xs'), fuel + 1, rest, hf, _ => by
      have hfi : (JsonList.cons x xs').fuelItems ≤ fuel := by
        have he : (Json.arr (.cons x xs')).fuelV = 1 + (JsonList.cons x xs').fuelItems := by
          simp [Json.fuelV]
        omega
      have hitems := parse_stringify_items (.cons x xs') fuel rest (by simp) hfi
      rcases stringify_head_ok x with ⟨c, t, hct, hws, hrb, hcb⟩
      have hitemshape : ∃ u, JsonList.stringifyItems (.cons x xs') = c :: u := by
        cases xs' with
        | nil =>
          exact ⟨t, by
            rw [show JsonList.stringifyItems (.cons x .nil) = x.stringifyChars from rfl, hct]⟩
        | cons y ys =>
          refine ⟨t ++ ',' :: JsonList.stringifyItems (.cons y ys), ?_⟩
          rw [show JsonList.stringifyItems (.cons x (.cons y ys))
              = x.stringifyChars ++ ',' :: JsonList.stringifyItems (.cons y ys) from rfl, hct]
          simp
      rcases hitemshape with ⟨u, hu⟩
      rw [show Json.stringifyChars (.arr (.cons x xs'))
          = '[' :: JsonList.stringifyItems (.cons x xs') ++ [']'] from rfl]
      rw [show ('[' :: JsonList.stringifyItems (.cons x xs') ++ [']']) ++ rest
          = '[' :: (JsonList.stringifyItems (.cons x xs') ++ ']' :: rest) from by simp]
      unfold parseValue
      rw [skipWs_not_ws _ _ (by decide)]
      dsimp only
      rw [if_neg (by decide), if_neg (by decide), if_pos rfl]
      rw [show JsonList.stringifyItems (.cons x xs') ++ ']' :: rest
          = c :: (u ++ ']' :: rest) from by rw [hu]; simp]
      rw [skipWs_not_ws _ _ hws]
      rw [if_neg (by simp [hrb])]
      rw [show c :: (u ++ ']' :: rest)
          = JsonList.stringifyItems (.cons x xs') ++ ']' :: rest from by rw [hu]; simp]
      rw [hitems]
      rfl
  | .obj .nil, fuel + 1, rest, _, _ => by
      rw [show Json.stringifyChars (.obj .nil) ++ rest = '{' :: ('}' :: rest) from rfl]
      unfold parseValue
      rw [skipWs_not_ws _ _ (by decide)]
      dsimp only
      rw [if_neg (by decide), if_pos rfl]
      rw [skipWs_not_ws _ _ (by decide)]
      simp
  | .obj (.cons k v fs'), fuel + 1, rest, hf, _ => by
      have hfi : (JsonObj.cons k v fs').fuelFields ≤ fuel := by
        have he : (Json.obj (.cons k v fs')).fuelV = 1 + (JsonObj.cons k v fs').fuelFields := by
          simp [Json.fuelV]
        omega
      have hfields := parse_stringify_fields (.cons k v fs') fuel rest (by simp) hfi
      have hshape : ∃ u, JsonObj.stringifyFields (.cons k v fs') = '"' :: u := by
        cases fs' with
        | nil =>
          exact ⟨escapeString k.data ++ '"' :: ':' :: v.stringifyChars, by
            rw [show JsonObj.stringifyFields (.cons k v .nil)
                = '"' :: escapeString k.data ++ '"' :: ':' :: v.stringifyChars from rfl]
            simp⟩
        | cons k2 v2 fs2 =>
          refine ⟨escapeString k.data ++ '"' :: ':' :: v.stringifyChars
              ++ ',' :: JsonObj.stringifyFields (.cons k2 v2 fs2), ?_⟩
          rw [show JsonObj.stringifyFields (.cons k v (.cons k2 v2 fs2))
              = '"' :: escapeString k.data ++ '"' :: ':' :: v.stringifyChars
                ++ ',' :: JsonObj.stringifyFields (.cons k2 v2 fs2) from rfl]
          simp
      rcases hshape with ⟨u, hu⟩
      rw [show Json.stringifyChars (.obj (.cons k v fs'))
          = '{' :: JsonObj.stringifyFields (.cons k v fs') ++ ['}'] from rfl]
      rw [show ('{' :: JsonObj.stringifyFields (.cons k v fs') ++ ['}']) ++ rest
          = '{' :: (JsonObj.stringifyFields (.cons k v fs') ++ '}' :: rest) from by simp]
      unfold parseValue
      rw [skipWs_not_ws _ _ (by decide)]
      dsimp only
      rw [if_neg (by decide), if_pos rfl]
      rw [show JsonObj.stringifyFields (.cons k v fs') ++ '}' :: rest
          = '"' :: (u ++ '}' :: rest) from by rw [hu]; simp]
      rw [skipWs_not_ws _ _ (by decide)]
      rw [if_neg (by simp)]
      rw [show '"' :: (u ++ '}' :: rest)
          = JsonObj.stringifyFields (.cons k v fs') ++ '}' :: rest from by rw [hu]; simp]
      rw [hfields]
      rfl

theorem parse_stringify_items : ∀ (xs : JsonList) (fuel : Nat) (rest : List Char),
    xs ≠ .nil → xs.fuelItems ≤ fuel →
    parseArrItems fuel (xs.stringifyItems ++ ']' :: rest) = some (xs, rest)
  | .nil, _, _, hne, _ => absurd rfl hne
  | .cons x xs', 0, rest, _, hf => by
      exact absurd hf (by simp [JsonList.fuelItems])
  | .cons x .nil, fuel + 1, rest, _, hf => by
      have hfv : x.fuelV ≤ fuel := by
        have he : (JsonList.cons x .nil).fuelItems = 1 + x.fuelV + 0 := by
          simp [JsonList.fuelItems, JsonList.fuelItems]
        omega
      rw [show JsonList.stringifyItems (.cons x .nil) = x.stringifyChars from rfl]
      unfold parseArrItems
      rw [parse_stringify x fuel (']' :: rest) hfv
          (by intro c hc; injection hc with h; subst h; decide)]
      dsimp only
      rw [skipWs_not_ws _ _ (by decide)]
      dsimp only
      rw [if_neg (by decide), if_pos rfl]
  | .cons x (.cons y ys), fuel + 1, rest, _, hf => by
      have hfv : x.fuelV ≤ fuel := by
        have he : (JsonList.cons x (.cons y ys)).fuelItems
            = 1 + x.fuelV + (JsonList.cons y ys).fuelItems := by
          simp [JsonList.fuelItems]
        omega
      have hfi : (JsonList.cons y ys).fuelItems ≤ fuel := by
        have he : (JsonList.cons x (.cons y ys)).fuelItems
            = 1 + x.fuelV + (JsonList.cons y ys).fuelItems := by
          simp [JsonList.fuelItems]
        omega
      have hrec := parse_stringify_items (.cons y ys) fuel rest (by simp) hfi
      rw [show JsonList.stringifyItems (.cons x (.cons y ys)) ++ ']' :: rest
          = x.stringifyChars ++ ',' :: (JsonList.stringifyItems (.cons y ys) ++ ']' :: rest)
          from by
        rw [show JsonList.stringifyItems (.cons x (.cons y ys))
            = x.stringifyChars ++ ',' :: JsonList.stringifyItems (.cons y ys) from rfl]
        simp]
      unfold parseArrItems
      rw [parse_stringify x fuel _ hfv
          (by intro c hc; injection hc with h; subst h; decide)]
      dsimp only
      rw [skipWs_not_ws _ _ (by decide)]
      dsimp only
      rw [if_pos rfl, hrec]
      rfl

theorem parse_stringify_fields : ∀ (fs : JsonObj) (fuel : Nat) (rest : List Char),
    fs ≠ .nil → fs.fuelFields ≤ fuel →
    parseObjFields fuel (fs.stringifyFields ++ '}' :: rest) = some (fs, rest)
  | .nil, _, _, hne, _ => absurd rfl hne
  | .cons k v fs', 0, rest, _, hf => by
      exact absurd hf (by simp [JsonObj.fuelFields])
  | .cons k v .nil, fuel + 1, rest, _, hf => by
      have hfv : v.fuelV ≤ fuel := by
        have he : (JsonObj.cons k v .nil).fuelFields = 1 + v.fuelV + 0 := by
          simp [JsonObj.fuelFields]
        omega
      rw [show JsonObj.stringifyFields (.cons k v .nil) ++ '}' :: rest
          = '"' :: (escapeString k.data ++ '"' :: (':' :: (v.stringifyChars ++ '}' :: rest)))
          from by
        rw [show JsonObj.stringifyFields (.cons k v .nil)
            = '"' :: escapeString k.data ++ '"' :: ':' :: v.stringifyChars from rfl]
        simp]
      unfold parseObjFields
      rw [skipWs_not_ws _ _ (by decide)]
      dsimp only
      rw [if_pos rfl, parseStringBody_escape]
      dsimp only
      rw [skipWs_not_ws _ _ (by decide)]
      dsimp only
      rw [if_pos rfl]
      rw [parse_stringify v fuel _ hfv
          (by intro c hc; injection hc with h; subst h; decide)]
      dsimp only
      rw [skipWs_not_ws _ _ (by decide)]
      dsimp only
      rw [if_neg (by decide), if_pos rfl]
  | .cons k v (.cons k2 v2 fs2), fuel + 1, rest, _, hf => by
      have hfv : v.fuelV ≤ fuel := by
        have he : (JsonObj.cons k v (.cons k2 v2 fs2)).fuelFields
            = 1 + v.fuelV + (JsonObj.cons k2 v2 fs2).fuelFields := by
          simp [JsonObj.fuelFields]
        omega
      have hfi : (JsonObj.cons k2 v2 fs2).fuelFields ≤ fuel := by
        have he : (JsonObj.cons k v (.cons k2 v2 fs2)).fuelFields
            = 1 + v.fuelV + (JsonObj.cons k2 v2 fs2).fuelFields := by
          simp [JsonObj.fuelFields]
        omega
      have hrec := parse_stringify_fields (.cons k2 v2 fs2) fuel rest (by simp) hfi
      rw [show JsonObj.stringifyFields (.cons k v (.cons k2 v2 fs2)) ++ '}' :: rest
          = '"' :: (escapeString k.data ++ '"' :: (':' :: (v.stringifyChars
              ++ ',' :: (JsonObj.stringifyFields (.cons k2 v2 fs2) ++ '}' :: rest))))
          from by
        rw [show JsonObj.stringifyFields (.cons k v (.cons k2 v2 fs2))
            = '"' :: escapeString k.data ++ '"' :: ':' :: v.stringifyChars
              ++ ',' :: JsonObj.stringifyFields (.cons k2 v2 fs2) from rfl]
        simp]
      unfold parseObjFields
      rw [skipWs_not_ws _ _ (by decide)]
      dsimp only
      rw [if_pos rfl, parseStringBody_escape]
      dsimp only
      rw [skipWs_not_ws _ _ (by decide)]
      dsimp only
      rw [if_pos rfl]
      rw [parse_stringify v fuel _ hfv
          (by intro c hc; injection hc with h; subst h; decide)]
      dsimp only
      rw [skipWs_not_ws _ _ (by decide)]
      dsimp only
      rw [if_pos rfl, hrec]
      rfl

end

mutual

theorem Json.fuelV_le_len : ∀ j : Json, j.fuelV ≤ j.stringifyChars.length
  | .null => by simp [Json.fuelV, Json.stringifyChars]
  | .bool true => by simp [Json.fuelV, Json.stringifyChars]
  | .bool false => by simp [Json.fuelV, Json.stringifyChars]
  | .num n => by
      have h1 := natToChars_ne_nil n.natAbs
      have h2 : 1 ≤ (natToChars n.natAbs).length := by
        cases hm : natToChars n.natAbs with
        | nil => exact absurd hm h1
        | cons d t => simp
      by_cases hn : n < 0
      · simp [Json.fuelV, Json.stringifyChars, intToChars, hn]
        try omega
      · simp [Json.fuelV, Json.stringifyChars, intToChars, hn]
        try omega
  | .str s => by simp [Json.fuelV, Json.stringifyChars]
  | .arr .nil => by simp [Json.fuelV, Json.stringifyChars, JsonList.fuelItems]
  | .arr (.cons x xs') => by
      have h := JsonList.fuelItems_le_len (.cons x xs')
      rw [show (Json.arr (.cons x xs')).fuelV = 1 + (JsonList.cons x xs').fuelItems from by
        simp [Json.fuelV]]
      rw [show (Json.arr (.cons x xs')).stringifyChars
          = '[' :: (JsonList.cons x xs').stringifyItems ++ [']'] from rfl]
      simp
      omega
  | .obj .nil => by simp [Json.fuelV, Json.stringifyChars, JsonObj.fuelFields]
  | .obj (.cons k v fs') => by
      have h := JsonObj.fuelFields_le_len (.cons k v fs')
      rw [show (Json.obj (.cons k v fs')).fuelV = 1 + (JsonObj.cons k v fs').fuelFields from by
        simp [Json.fuelV]]
      rw [show (Json.obj (.cons k v fs')).stringifyChars
          = '{' :: (JsonObj.cons k v fs').stringifyFields ++ ['}'] from rfl]
      simp
      omega

theorem JsonList.fuelItems_le_len :
    ∀ xs : JsonList, xs.fuelItems ≤ xs.stringifyItems.length + 1
  | .nil => by simp [JsonList.fuelItems]
  | .cons x .nil => by
      have h := Json.fuelV_le_len x
      rw [show (JsonList.cons x .nil).fuelItems = 1 + x.fuelV + 0 from by
        simp [JsonList.fuelItems]]
      rw [show (JsonList.cons x .nil).stringifyItems = x.stringifyChars from rfl]
      omega
  | .cons x (.cons y ys) => by
      have h1 := Json.fuelV_le_len x
      have h2 := JsonList.fuelItems_le_len (.cons y ys)
      rw [show (JsonList.cons x (.cons y ys)).fuelItems
          = 1 + x.fuelV + (JsonList.cons y ys).fuelItems from by simp [JsonList.fuelItems]]
      rw [show (JsonList.cons x (.cons y ys)).stringifyItems
          = x.stringifyChars ++ ',' :: (JsonList.cons y ys).stringifyItems from rfl]
      simp
      omega

theorem JsonObj.fuelFields_le_len :
    ∀ fs : JsonObj, fs.fuelFields ≤ fs.stringifyFields.length + 1
  | .nil => by simp [JsonObj.fuelFields]
  | .cons k v .nil => by
      have h := Json.fuelV_le_len v
      rw [show (JsonObj.cons k v .nil).fuelFields = 1 + v.fuelV + 0 from by
        simp [JsonObj.fuelFields]]
      rw [show (JsonObj.cons k v .nil).stringifyFields
          = '"' :: escapeString k.data ++ '"' :: ':' :: v.stringifyChars from rfl]
      simp
      omega
  | .cons k v (.cons k2 v2 fs2) => by
      have h1 := Json.fuelV_le_len v
      have h2 := JsonObj.fuelFields_le_len (.cons k2 v2 fs2)
      rw [show (JsonObj.cons k v (.cons k2 v2 fs2)).fuelFields
          = 1 + v.fuelV + (JsonObj.cons k2 v2 fs2).fuelFields from by simp [JsonObj.fuelFields]]
      rw [show (JsonObj.cons k v (.cons k2 v2 fs2)).stringifyFields
          = '"' :: escapeString k.data ++ '"' :: ':' :: v.stringifyChars
            ++ ',' :: (JsonObj.cons k2 v2 fs2).stringifyFields from rfl]
      simp
      omega

end

theorem jsonParse_stringifyStr (j : Json) : jsonParse j.stringifyStr = some j := by
  unfold jsonParse
  have hdata : (Json.stringifyStr j).data = j.stringifyChars := rfl
  rw [hdata]
  have hfuel : j.fuelV ≤ j.stringifyChars.length + 1 := by
    have := Json.fuelV_le_len j
    omega
  have hparse := parse_stringify j (j.stringifyChars.length + 1) [] hfuel
    (by intro c hc; simp at hc)
  rw [show j.stringifyChars ++ ([] : List Char) = j.stringifyChars from by simp] at hparse
  rw [hparse]
  rfl

/-! ## Adapter re-encoding lemmas -/

theorem openAIFormatMessages_append (a b : List AIMessage) :
    openAIFormatMessages (a ++ b) = openAIFormatMessages a ++ openAIFormatMessages b := by
  simp [openAIFormatMessages]

theorem openAIFormatMessages_one (m : AIMessage) :
    openAIFormatMessages [m] = openAIFormatOne m := by
  simp [openAIFormatMessages]

theorem anthropicGo_msgs (msgs : List AIMessage) :
    ∀ sys0, (anthropicGo sys0 msgs).2 = (msgs.map anthMsgsOne).flatten := by
  induction msgs with
  | nil => intro sys0; rfl
  | cons m rest ih =>
    intro sys0
    by_cases hs : m.role = Role.system
    · have hstep : anthropicGo sys0 (m :: rest)
          = anthropicGo (some (sys0.getD "" ++ m.content ++ "\n")) rest := by
        simp [anthropicGo, hs]
      rw [hstep, ih]
      simp [anthMsgsOne, hs]
    · rcases hgo : anthropicGo sys0 rest with ⟨s', ms⟩
      have h1 : ms = (List.map anthMsgsOne rest).flatten := by
        have h0 := ih sys0
        rw [hgo] at h0
        exact h0
      by_cases h2 : m.role = Role.tool ∧ m.toolResults.isSome
      · have hstep : (anthropicGo sys0 (m :: rest)).2
            = ((m.toolResults.getD []).map (fun tr =>
                AnthMsg.mk "user" (.blocks [.tool_result tr.toolCallId tr.result tr.isError])))
              ++ ms := by
          simp [anthropicGo, hs, h2, hgo]
        rw [hstep, h1]
        simp [anthMsgsOne, hs, h2]
      · by_cases h3 : m.toolCalls ≠ []
        · have hstep : (anthropicGo sys0 (m :: rest)).2
              = AnthMsg.mk "assistant"
                  (.blocks (m.toolCalls.map (fun tc => .tool_use tc.id tc.name tc.arguments)))
                :: ms := by
            simp [anthropicGo, hs, h2, h3, hgo]
          rw [hstep, h1]
          simp [anthMsgsOne, hs, h2, h3]
        · have hstep : (anthropicGo sys0 (m :: rest)).2
              = AnthMsg.mk (if m.role = Role.assistant then "assistant" else "user")
                  (.text m.content) :: ms := by
            simp [anthropicGo, hs, h2, h3, hgo]
          rw [hstep, h1]
          simp [anthMsgsOne, hs, h2, h3]

theorem anthropicFormatMessages_msgs (msgs : List AIMessage) :
    (anthropicFormatMessages msgs).2 = (msgs.map anthMsgsOne).flatten := by
  rcases hgo : anthropicGo none msgs with ⟨s', ms⟩
  have h := anthropicGo_msgs msgs none
  rw [hgo] at h
  simp [anthropicFormatMessages, hgo]
  exact h

theorem googleGo_contents (msgs : List AIMessage) :
    ∀ sys0, (googleGo sys0 msgs).2 = (msgs.map googleContentsOne).flatten := by
  induction msgs with
  | nil => intro sys0; rfl
  | cons m rest ih =>
    intro sys0
    by_cases hs : m.role = Role.system
    · have hstep : googleGo sys0 (m :: rest) = googleGo (some m.content) rest := by
        simp [googleGo, hs]
      rw [hstep, ih]
      simp [googleContentsOne, hs]
    · rcases hgo : googleGo sys0 rest with ⟨s', ms⟩
      have h1 : ms = (List.map googleContentsOne rest).flatten := by
        have h0 := ih sys0
        rw [hgo] at h0
        exact h0
      by_cases h2 : m.role = Role.tool ∧ m.toolResults.isSome
      · have hstep : (googleGo sys0 (m :: rest)).2
            = GContent.mk "function"
                ((m.toolResults.getD []).map (fun tr => .functionResponse tr.toolCallId tr.result))
              :: ms := by
          simp [googleGo, hs, h2, hgo]
        rw [hstep, h1]
        simp [googleContentsOne, hs, h2]
      · by_cases h3 : m.toolCalls ≠ []
        · have hstep : (googleGo sys0 (m :: rest)).2
              = GContent.mk "model"
                  (m.toolCalls.map (fun tc => .functionCall tc.name tc.arguments)) :: ms := by
            simp [googleGo, hs, h2, h3, hgo]
          rw [hstep, h1]
          simp [googleContentsOne, hs, h2, h3]
        · have hstep : (googleGo sys0 (m :: rest)).2
              = GContent.mk (if m.role = Role.assistant then "model" else "user")
                  [.text m.content] :: ms := by
            simp [googleGo, hs, h2, h3, hgo]
          rw [hstep, h1]
          simp [googleContentsOne, hs, h2, h3]

theorem googleFormatMessages_contents (msgs : List AIMessage) :
    (googleFormatMessages msgs).2 = (msgs.map googleContentsOne).flatten := by
  rcases hgo : googleGo none msgs with ⟨s', ms⟩
  have h := googleGo_contents msgs none
  rw [hgo] at h
  simp [googleFormatMessages, hgo]
  exact h

/-- C4: replaying a historical assistant turn with tool invocations and its
tool-outcome turn inside any larger history re-encodes it identically and
losslessly in all three vendor adapters: OpenAI keeps the id, name and
`JSON.stringify`-ed arguments (and the serialized arguments parse back to
exactly the original bag) and one `role:"tool"` message per outcome keyed by
`tool_call_id`; Anthropic emits one `tool_use` block per invocation
(id/name/input verbatim) and one `tool_result` block per outcome keyed by
`tool_use_id`; Google emits one `functionCall` part per invocation
(name/args verbatim) and one `functionResponse` part per outcome whose name
field carries the invocation id it answers. -/
theorem adapters_roundtrip_tool_turns
    (pre post : List AIMessage) (content tcontent : String)
    (tcs : List ToolCall) (trs : List ToolResultRec) (htcs : tcs ≠ []) :
    (openAIFormatMessages (pre ++ assistantTurn content tcs :: toolTurn tcontent trs :: post)
      = openAIFormatMessages pre
        ++ [OAIMessage.chat "assistant" content
              (tcs.map (fun tc => ⟨tc.id, tc.name, tc.arguments.stringifyStr⟩))]
        ++ trs.map (fun tr => OAIMessage.toolResult tr.toolCallId tr.result)
        ++ openAIFormatMessages post)
    ∧ (∀ tc ∈ tcs, jsonParse tc.arguments.stringifyStr = some tc.arguments)
    ∧ ((anthropicFormatMessages
          (pre ++ assistantTurn content tcs :: toolTurn tcontent trs :: post)).2
      = (anthropicFormatMessages pre).2
        ++ [AnthMsg.mk "assistant"
              (.blocks (tcs.map (fun tc => .tool_use tc.id tc.name tc.arguments)))]
        ++ trs.map (fun tr =>
            AnthMsg.mk "user" (.blocks [.tool_result tr.toolCallId tr.result tr.isError]))
        ++ (anthropicFormatMessages post).2)
    ∧ ((googleFormatMessages
          (pre ++ assistantTurn content tcs :: toolTurn tcontent trs :: post)).2
      = (googleFormatMessages pre).2
        ++ [GContent.mk "model" (tcs.map (fun tc => .functionCall tc.name tc.arguments)),
            GContent.mk "function"
              (trs.map (fun tr => .functionResponse tr.toolCallId tr.result))]
        ++ (googleFormatMessages post).2) := by
  refine ⟨?_, fun tc _ => jsonParse_stringifyStr tc.arguments, ?_, ?_⟩
  · rw [show pre ++ assistantTurn content tcs :: toolTurn tcontent trs :: post
        = pre ++ [assistantTurn content tcs] ++ [toolTurn tcontent trs] ++ post from by simp]
    rw [openAIFormatMessages_append, openAIFormatMessages_append, openAIFormatMessages_append,
        openAIFormatMessages_one, openAIFormatMessages_one]
    rw [show openAIFormatOne (assistantTurn content tcs)
        = [OAIMessage.chat "assistant" content
            (tcs.map (fun tc => ⟨tc.id, tc.name, tc.arguments.stringifyStr⟩))] from by
      simp [openAIFormatOne, assistantTurn, roleStr]]
    rw [show openAIFormatOne (toolTurn tcontent trs)
        = trs.map (fun tr => OAIMessage.toolResult tr.toolCallId tr.result) from by
      simp [openAIFormatOne, toolTurn]]
    try simp
  · rw [anthropicFormatMessages_msgs, anthropicFormatMessages_msgs,
        anthropicFormatMessages_msgs]
    rw [show pre ++ assistantTurn content tcs :: toolTurn tcontent trs :: post
        = pre ++ [assistantTurn content tcs] ++ [toolTurn tcontent trs] ++ post from by simp]
    simp only [List.map_append, List.flatten_append]
    rw [show ([assistantTurn content tcs].map anthMsgsOne).flatten
        = [AnthMsg.mk "assistant"
            (.blocks (tcs.map (fun tc => .tool_use tc.id tc.name tc.arguments)))] from by
      simp [anthMsgsOne, assistantTurn, htcs]]
    rw [show ([toolTurn tcontent trs].map anthMsgsOne).flatten
        = trs.map (fun tr =>
            AnthMsg.mk "user" (.blocks [.tool_result tr.toolCallId tr.result tr.isError])) from by
      simp [anthMsgsOne, toolTurn]]
    try simp
  · rw [googleFormatMessages_contents, googleFormatMessages_contents,
        googleFormatMessages_contents]
    rw [show pre ++ assistantTurn content tcs :: toolTurn tcontent trs :: post
        = pre ++ [assistantTurn content tcs] ++ [toolTurn tcontent trs] ++ post from by simp]
    simp only [List.map_append, List.flatten_append]
    rw [show ([assistantTurn content tcs].map googleContentsOne).flatten
        = [GContent.mk "model" (tcs.map (fun tc => .functionCall tc.name tc.arguments))] from by
      simp [googleContentsOne, assistantTurn, htcs]]
    rw [show ([toolTurn tcontent trs].map googleContentsOne).flatten
        = [GContent.mk "function"
            (trs.map (fun tr => .functionResponse tr.toolCallId tr.result))] from by
      simp [googleContentsOne, toolTurn]]
    try simp

/-- C4 witness: one invocation (`read_file` with arguments `path = "x"`) and
its outcome, replayed after a system turn, in all three adapters. -/
theorem adapters_roundtrip_tool_turns_witness :
    (openAIFormatMessages ([({ role := Role.system, content := "sys" } : AIMessage)]
          ++ assistantTurn "c" [stubToolCall]
            :: toolTurn "t" [(⟨"call_1", "data", false⟩ : ToolResultRec)] :: [])
      = openAIFormatMessages [({ role := Role.system, content := "sys" } : AIMessage)]
        ++ [OAIMessage.chat "assistant" "c"
              ([stubToolCall].map (fun tc => ⟨tc.id, tc.name, tc.arguments.stringifyStr⟩))]
        ++ [(⟨"call_1", "data", false⟩ : ToolResultRec)].map
            (fun tr => OAIMessage.toolResult tr.toolCallId tr.result)
        ++ openAIFormatMessages [])
    ∧ (∀ tc ∈ [stubToolCall], jsonParse tc.arguments.stringifyStr = some tc.arguments)
    ∧ ((anthropicFormatMessages ([({ role := Role.system, content := "sys" } : AIMessage)]
          ++ assistantTurn "c" [stubToolCall]
            :: toolTurn "t" [(⟨"call_1", "data", false⟩ : ToolResultRec)] :: [])).2
      = (anthropicFormatMessages [({ role := Role.system, content := "sys" } : AIMessage)]).2
        ++ [AnthMsg.mk "assistant"
              (.blocks ([stubToolCall].map (fun tc => .tool_use tc.id tc.name tc.arguments)))]
        ++ [(⟨"call_1", "data", false⟩ : ToolResultRec)].map (fun tr =>
            AnthMsg.mk "user" (.blocks [.tool_result tr.toolCallId tr.result tr.isError]))
        ++ (anthropicFormatMessages []).2)
    ∧ ((googleFormatMessages ([({ role := Role.system, content := "sys" } : AIMessage)]
          ++ assistantTurn "c" [stubToolCall]
            :: toolTurn "t" [(⟨"call_1", "data", false⟩ : ToolResultRec)] :: [])).2
      = (googleFormatMessages [({ role := Role.system, content := "sys" } : AIMessage)]).2
        ++ [GContent.mk "model"
              ([stubToolCall].map (fun tc => .functionCall tc.name tc.arguments)),
            GContent.mk "function"
              ([(⟨"call_1", "data", false⟩ : ToolResultRec)].map
                (fun tr => .functionResponse tr.toolCallId tr.result))]
        ++ (googleFormatMessages []).2) :=
  adapters_roundtrip_tool_turns [({ role := Role.system, content := "sys" } : AIMessage)] []
    "c" "t" [stubToolCall] [(⟨"call_1", "data", false⟩ : ToolResultRec)] (by decide)

end DanielAI
